import Mathlib

/-!
A verification development for the core of the `goggles` ECS library.

The Rust sources are shallowly embedded: machine integers become `Nat`/`Int`
(overflow in the sources is a fatal panic, never wrapping, and is not
exercised here), the hibitset bitsets (`BitSet`, `AtomicBitSet`) become
`Finset ℕ` whose iterator yields indices in ascending order, vectors become
lists, and fallible operations return `Except` paired with the resulting
state (mirroring `&mut self` methods that return `Result`).
-/

namespace Goggles

/-! ## Generations (src/entity.rs)

A generation is an `i32` in the source (`GenId`); zero is the never-allocated
dead generation, positive is alive, negative is dead.  We embed it as `Int`.
-/

/-- `Generation::raised` from src/entity.rs: if the generation is alive
(positive) it is returned unchanged, otherwise the raised id is `1 - id`. -/
def genRaised (g : Int) : Int :=
  if 0 < g then g else 1 - g

/-- `Generation::killed` from src/entity.rs: an alive generation `g` becomes
`-g`, a dead generation is unchanged. -/
def genKilled (g : Int) : Int :=
  if 0 < g then -g else g

/-- An upper bound (exclusive) on the members of a finite bitset. -/
def maskBound (s : Finset Nat) : Nat :=
  s.sup id + 1

/-- hibitset's `BitIter` over a finite bitset: the members in ascending
order.  (Implemented by enumeration below a bound rather than by
`Finset.sort` so that concrete runs reduce inside the kernel.) -/
def maskIter (s : Finset Nat) : List Nat :=
  (List.range (maskBound s)).filter (fun i => decide (i ∈ s))

/-- `Entity` from src/entity.rs: an index paired with a (nonzero, alive)
generation.  The `NonZeroI32` niche is irrelevant to behaviour, so the
generation is embedded as a plain `Int`. -/
structure Entity where
  index : Nat
  generation : Int
deriving DecidableEq, Repr

/-- `WrongGeneration` error from src/entity.rs. -/
inductive WrongGeneration where
  | wrongGeneration
deriving DecidableEq, Repr

/-! ## The allocator state (src/entity.rs)

`Vec<Generation>` becomes `List Int` (reads out of range use the default
generation `0`, exactly like `Allocator::generation`'s
`get(..).copied().unwrap_or(Generation::zero())`).  The `EntityCache` is a
vector together with its atomic length counter: the vector may be longer
than the counter (stale entries past `len` are ignored, `maintain`
truncates).  `index_len` is the atomic max-allocated-index-plus-one.
-/

/-- `Allocator` from src/entity.rs, with its embedded `EntityCache`
(`cache` vector plus atomic `len` counter, here `cacheLen`). -/
@[ext]
structure Allocator where
  generations : List Int
  alive : Finset Nat
  raisedAtomic : Finset Nat
  killedAtomic : Finset Nat
  cache : List Nat
  cacheLen : Nat
  indexLen : Nat
deriving DecidableEq

/-- Decidable equality for `Except` results, used to evaluate concrete runs. -/
instance {ε α : Type} [DecidableEq ε] [DecidableEq α] :
    DecidableEq (Except ε α) := fun a b =>
  match a, b with
  | .ok x, .ok y =>
      if h : x = y then isTrue (by rw [h])
      else isFalse (by intro hc; cases hc; exact h rfl)
  | .ok _, .error _ => isFalse (by intro hc; cases hc)
  | .error _, .ok _ => isFalse (by intro hc; cases hc)
  | .error x, .error y =>
      if h : x = y then isTrue (by rw [h])
      else isFalse (by intro hc; cases hc; exact h rfl)

namespace Allocator

/-- `Allocator::default()` / `Allocator::new()`: everything empty. -/
def init : Allocator :=
  { generations := [], alive := ∅, raisedAtomic := ∅, killedAtomic := ∅,
    cache := [], cacheLen := 0, indexLen := 0 }

/-- `Vec::resize_with(n, Default::default)` when growing only
(`Allocator::update_generation_length` grows `generations` to `index_len`
when it is shorter, filling with the zero generation). -/
def padTo (g : List Int) (n : Nat) : List Int :=
  g ++ List.replicate (n - g.length) 0

/-- `Allocator::generation`: the generation stored for an index, defaulting
to zero when the index is past the end of the vector. -/
def generation (s : Allocator) (i : Nat) : Int :=
  s.generations.getD i 0

/-- `Allocator::entity`: the live entity currently associated with an index,
if any.  Alive stored generation wins; otherwise an atomically raised index
yields the raised generation. -/
def entity (s : Allocator) (i : Nat) : Option Entity :=
  if 0 < s.generation i then some ⟨i, s.generation i⟩
  else if i ∈ s.raisedAtomic then some ⟨i, genRaised (s.generation i)⟩
  else none

/-- `Allocator::is_alive`: the entity equals the current observable entity
for its index. -/
def isAlive (s : Allocator) (e : Entity) : Bool :=
  decide (s.entity e.index = some e)

/-- `Allocator::live_bitset`: `BitSetOr` of `alive` and `raised_atomic`. -/
def liveBitset (s : Allocator) : Finset Nat :=
  s.alive ∪ s.raisedAtomic

/-- `Allocator::max_entity_count`: the `index_len` counter. -/
def maxEntityCount (s : Allocator) : Nat :=
  s.indexLen

/-- The common tail of `Allocator::allocate` after the index has been chosen:
add to `alive`, raise the stored generation, return the raised entity. -/
def allocCommit (s : Allocator) (i : Nat) : Entity × Allocator :=
  let r := genRaised (s.generation i)
  (⟨i, r⟩,
   { s with alive := insert i s.alive, generations := s.generations.set i r })

/-- `Allocator::allocate`: pop the cache (`EntityCache::pop` first truncates
the vector to the atomic length, then pops the back); on empty take a fresh
index from `index_len` and grow `generations`. -/
def allocate (s : Allocator) : Entity × Allocator :=
  let c := s.cache.take s.cacheLen
  match c.getLast? with
  | some i =>
      allocCommit
        { s with cache := c.dropLast, cacheLen := c.dropLast.length } i
  | none =>
      let i := s.indexLen
      allocCommit
        { s with cache := c, cacheLen := 0, indexLen := i + 1,
                 generations := padTo s.generations (i + 1) } i

/-- `Allocator::allocate_atomic`: `EntityCache::pop_atomic` decrements the
atomic length and reads the vector entry there; on empty the `index_len`
counter is incremented.  Only `raised_atomic` is marked; `generations` is
untouched, and the returned generation is the raised current one. -/
def allocateAtomic (s : Allocator) : Entity × Allocator :=
  if 0 < s.cacheLen then
    let i := s.cache.getD (s.cacheLen - 1) 0
    (⟨i, genRaised (s.generation i)⟩,
     { s with cacheLen := s.cacheLen - 1,
              raisedAtomic := insert i s.raisedAtomic })
  else
    let i := s.indexLen
    (⟨i, genRaised (s.generation i)⟩,
     { s with indexLen := i + 1, raisedAtomic := insert i s.raisedAtomic })

/-- `EntityCache::push` (via `Extend`): truncate to the atomic length, append
the index, and store the new length. -/
def cachePush (s : Allocator) (i : Nat) : Allocator :=
  { s with cache := s.cache.take s.cacheLen ++ [i],
           cacheLen := (s.cache.take s.cacheLen ++ [i]).length }

/-- `Allocator::kill`: guard on `is_alive`, clear the alive and pending-kill
bits, commit the generation history (twice for an atomically-raised entity:
raised then killed), and push the index onto the cache.  The error path
returns before any mutation. -/
def kill (s : Allocator) (e : Entity) :
    Except WrongGeneration Unit × Allocator :=
  if s.isAlive e then
    let i := e.index
    let s1 := { s with alive := s.alive.erase i,
                       killedAtomic := s.killedAtomic.erase i }
    let s2 :=
      if i ∈ s1.raisedAtomic then
        let t := { s1 with raisedAtomic := s1.raisedAtomic.erase i,
                           generations := padTo s1.generations s1.indexLen }
        { t with generations :=
            t.generations.set i (genKilled (genRaised (t.generation i))) }
      else
        { s1 with generations :=
            s1.generations.set i (genKilled (s1.generation i)) }
    (.ok (), cachePush s2 i)
  else (.error .wrongGeneration, s)

/-- `Allocator::kill_atomic`: guard on `is_alive`, then mark the pending-kill
bit only.  The error path returns before any mutation. -/
def killAtomic (s : Allocator) (e : Entity) :
    Except WrongGeneration Unit × Allocator :=
  if s.isAlive e then
    (.ok (), { s with killedAtomic := insert e.index s.killedAtomic })
  else (.error .wrongGeneration, s)

/-- `Allocator::merge_atomic`: grow `generations` to `index_len`, commit each
atomically raised index (ascending bitset order) into `generations`/`alive`,
clear `raised_atomic`; then for each pending-kill index (ascending) clear
`alive`, emit the killed entity (the source reads
`generation.to_alive().unwrap()`, whose value is the stored generation — the
panic on a non-positive generation is unreachable for indices marked while
alive), kill the generation, clear `killed_atomic`, and finally push all
newly killed indices onto the cache. -/
def raiseStep (t : Allocator) (i : Nat) : Allocator :=
  { t with generations := t.generations.set i (genRaised (t.generation i)),
           alive := insert i t.alive }

def killStep (acc : List Entity × Allocator) (i : Nat) :
    List Entity × Allocator :=
  (acc.1 ++ [⟨i, acc.2.generation i⟩],
   { acc.2 with
       alive := acc.2.alive.erase i,
       generations :=
         acc.2.generations.set i (genKilled (acc.2.generation i)) })

def mergeAtomic (s : Allocator) : List Entity × Allocator :=
  let s0 := { s with generations := padTo s.generations s.indexLen }
  let s1 := (maskIter s0.raisedAtomic).foldl raiseStep s0
  let s2 := { s1 with raisedAtomic := ∅ }
  let p := (maskIter s2.killedAtomic).foldl killStep ([], s2)
  let s3 := { p.2 with killedAtomic := ∅ }
  (p.1, { s3 with cache := s3.cache.take s3.cacheLen ++ p.1.map Entity.index,
                  cacheLen := (s3.cache.take s3.cacheLen ++ p.1.map Entity.index).length })

end Allocator

/-! ## Atomic-phase operations

The `&self` surface of the allocator: concurrent allocation and pending
kills, run here in a chosen sequential order (claims C3, C4, C6 quantify
over all such orders). -/

/-- An atomic-phase operation: `allocate_atomic()` or `kill_atomic(e)`. -/
inductive AOp where
  | alloc
  | kill (e : Entity)
deriving DecidableEq, Repr

/-- State after one atomic-phase operation (result values dropped). -/
def stepAtomicState (s : Allocator) : AOp → Allocator
  | .alloc => (s.allocateAtomic).2
  | .kill e => (s.killAtomic e).2

/-- State after a sequence of atomic-phase operations. -/
def runAtomicState (s : Allocator) (ops : List AOp) : Allocator :=
  ops.foldl stepAtomicState s

/-- Run a sequence of atomic-phase operations, also collecting the allocated
entities (in call order) and the entities whose `kill_atomic` succeeded (in
call order, one occurrence per successful call). -/
def runA : Allocator → List AOp → Allocator × List Entity × List Entity
  | s, [] => (s, [], [])
  | s, .alloc :: ops =>
    let p := s.allocateAtomic
    let q := runA p.2 ops
    (q.1, p.1 :: q.2.1, q.2.2)
  | s, .kill e :: ops =>
    let p := s.killAtomic e
    let q := runA p.2 ops
    (q.1, q.2.1,
     match p.1 with
     | .ok _ => e :: q.2.2
     | .error _ => q.2.2)

/-- The serial image of an atomic-phase sequence with the kills deferred:
each `allocate_atomic` becomes an exclusive `allocate` (the `kill` entries
are skipped here; they are applied at the merge point, see `killAll`).
Also collects the allocated entities in call order. -/
def runS : Allocator → List AOp → Allocator × List Entity
  | s, [] => (s, [])
  | s, .alloc :: ops =>
    let p := s.allocate
    let q := runS p.2 ops
    (q.1, p.1 :: q.2)
  | s, .kill _ :: ops => runS s ops

/-- Serially `kill` each entity of a list in order, requiring every kill to
succeed. -/
def killAll (s : Allocator) (es : List Entity) :
    Except WrongGeneration Allocator :=
  es.foldlM
    (fun t e =>
      match t.kill e with
      | (.ok _, t') => .ok t'
      | (.error g, _) => .error g) s

/-- An allocator with no outstanding atomic operations: both atomic bitsets
empty, the cache vector in sync with its atomic length counter, the
generations vector grown to `index_len` (the source notes this holds
whenever there are no outstanding atomic operations), and every cached
reusable index inside the allocated index range (every cached index was
once allocated). -/
def CleanState (s : Allocator) : Prop :=
  s.raisedAtomic = ∅ ∧ s.killedAtomic = ∅ ∧
    s.cacheLen = s.cache.length ∧ s.generations.length = s.indexLen ∧
    ∀ i ∈ s.cache, i < s.indexLen

instance (s : Allocator) : Decidable (CleanState s) := by
  unfold CleanState
  infer_instance

/-- The serial image of an atomic-phase sequence with the kills in place:
each `allocate_atomic` becomes `allocate` and each `kill_atomic` becomes
`kill` at the same position (the literal reading of the spec's serial
equivalent). -/
def runSerial : Allocator → List AOp → Allocator
  | s, [] => s
  | s, .alloc :: ops => runSerial (s.allocate).2 ops
  | s, .kill e :: ops => runSerial ((s.kill e).2) ops

/-- The entity observed at index `i` while only atomic operations run on
top of base state `s`: the stored generation when it is alive, otherwise
its raised version (the latter is only observable when the index is in
`raised_atomic`). -/
def obsEnt (s : Allocator) (i : Nat) : Entity :=
  if 0 < s.generation i then ⟨i, s.generation i⟩
  else ⟨i, genRaised (s.generation i)⟩

/-- The simulation relation for claim C3: `s` is the reconciled base state,
`t` the state after a prefix of atomic operations, and `u` the state of the
serial (deferred-kill) equivalent after the corresponding `allocate`
calls. -/
structure MidRel (s t u : Allocator) : Prop where
  sglen : s.generations.length = s.indexLen
  tgens : t.generations = s.generations
  talive : t.alive = s.alive
  tcache : t.cache = s.cache
  tclen_le : t.cacheLen ≤ s.cache.length
  ucache : u.cache = s.cache.take t.cacheLen
  uclen : u.cacheLen = t.cacheLen
  uindex : u.indexLen = t.indexLen
  sindex : s.indexLen ≤ t.indexLen
  ualive : u.alive = s.alive ∪ t.raisedAtomic
  uraised : u.raisedAtomic = ∅
  ukilled : u.killedAtomic = ∅
  uglen : u.generations.length = t.indexLen
  ugens : ∀ j, u.generations[j]? =
    if j < t.indexLen then
      some (if j ∈ t.raisedAtomic then genRaised (s.generation j)
        else s.generation j)
    else none
  raised_lt : ∀ i ∈ t.raisedAtomic, i < t.indexLen
  killed_live : ∀ i ∈ t.killedAtomic,
    0 < s.generation i ∨ i ∈ t.raisedAtomic

/-! ## Full operation sequences (claim C4) -/

/-- Any top-level allocator operation. -/
inductive Op where
  | alloc
  | allocAtomic
  | kill (e : Entity)
  | killAtomic (e : Entity)
  | merge
deriving DecidableEq, Repr

/-- One step of a top-level operation, returning the allocated entity when
the operation is an allocation. -/
def stepOp (s : Allocator) : Op → Allocator × Option Entity
  | .alloc => let p := s.allocate; (p.2, some p.1)
  | .allocAtomic => let p := s.allocateAtomic; (p.2, some p.1)
  | .kill e => ((s.kill e).2, none)
  | .killAtomic e => ((s.killAtomic e).2, none)
  | .merge => ((s.mergeAtomic).2, none)

/-- Run a sequence of top-level operations, collecting every entity returned
by an allocation (`allocate` or `allocate_atomic`), in call order. -/
def runOps : Allocator → List Op → Allocator × List Entity
  | s, [] => (s, [])
  | s, op :: ops =>
    let p := stepOp s op
    let q := runOps p.1 ops
    (q.1, p.2.toList ++ q.2)

/-- The generation ceiling of an index: the largest generation the allocator
has handed out (or will observably report) for that index so far.  A future
allocation of the index always exceeds it. -/
def cap (s : Allocator) (i : Nat) : Int :=
  if i ∈ s.raisedAtomic then genRaised (s.generation i)
  else if 0 < s.generation i then s.generation i
  else -(s.generation i)

/-- The allocator state invariant maintained by every top-level operation
(started from `Allocator.init`): generations bounded by `index_len`, the
raised set within range with dead stored generations, the active region of
the cache duplicate-free with dead, unraised, in-range indices, and
pending kills only on observably-live indices. -/
def Inv (s : Allocator) : Prop :=
  s.generations.length ≤ s.indexLen ∧
  (∀ i ∈ s.raisedAtomic, i < s.indexLen) ∧
  (∀ i ∈ s.raisedAtomic, s.generation i ≤ 0) ∧
  s.cacheLen ≤ s.cache.length ∧
  (s.cache.take s.cacheLen).Nodup ∧
  (∀ i ∈ s.cache.take s.cacheLen,
    s.generation i ≤ 0 ∧ i ∉ s.raisedAtomic ∧ i < s.generations.length) ∧
  (∀ i ∈ s.killedAtomic, 0 < s.generation i ∨ i ∈ s.raisedAtomic)

/-! ## R/W resource sets (src/resources.rs and src/par_seq.rs)

`RwResources` holds two `HashSet`s; we embed them as `Finset`s over an
arbitrary resource type with decidable equality. -/

/-- `RwResources` from src/resources.rs / src/par_seq.rs. -/
structure RwResources (α : Type) [DecidableEq α] where
  reads : Finset α
  writes : Finset α

namespace RwResources

variable {α : Type} [DecidableEq α]

/-- `Resources::union for RwResources`: insert every write of `other`, then
insert each read of `other` that is not in the (already updated) write set.
Note that `self`'s own reads are never filtered against `other`'s writes. -/
def union (a b : RwResources α) : RwResources α :=
  let ws := a.writes ∪ b.writes
  { writes := ws, reads := a.reads ∪ b.reads.filter (fun r => r ∉ ws) }

/-- `Resources::conflicts_with for RwResources`: some write of one side
overlaps a read or write of the other. -/
def conflictsWith (a b : RwResources α) : Prop :=
  (a.writes ∩ b.reads).Nonempty ∨ (a.writes ∩ b.writes).Nonempty ∨
    (b.writes ∩ a.reads).Nonempty ∨ (b.writes ∩ a.writes).Nonempty

instance (a b : RwResources α) : Decidable (conflictsWith a b) := by
  unfold conflictsWith
  infer_instance

end RwResources

/-! ## System composition (src/par_seq.rs)

For resource checking, a system is fully described by its
`check_resources` result, so the composition tree of `Par`/`Seq` over leaf
systems is embedded as an inductive tree.  The `ResourceConflict` error
carries the conflicting composition's type name. -/

/-- `ResourceConflict` from src/par_seq.rs. -/
structure ResourceConflict where
  typeName : String
deriving DecidableEq, Repr

/-- A composition tree of systems: a leaf is an arbitrary system described
by its constant `check_resources` result; `par`/`seq` are the `Par` and
`Seq` combinators. -/
inductive Sys (α : Type) [DecidableEq α] where
  | leaf (r : Except ResourceConflict (RwResources α))
  | par (head tail : Sys α)
  | seq (head tail : Sys α)

/-- `System::check_resources` for `Par` and `Seq` from src/par_seq.rs: both
propagate a child error; `Par` additionally errors when the two child
resource sets conflict, otherwise both return the union. -/
def Sys.checkResources {α : Type} [DecidableEq α] :
    Sys α → Except ResourceConflict (RwResources α)
  | .leaf r => r
  | .par h t =>
    match h.checkResources with
    | .error e => .error e
    | .ok hr =>
      match t.checkResources with
      | .error e => .error e
      | .ok tr =>
        if hr.conflictsWith tr then .error ⟨"Par"⟩
        else .ok (hr.union tr)
  | .seq h t =>
    match h.checkResources with
    | .error e => .error e
    | .ok hr =>
      match t.checkResources with
      | .error e => .error e
      | .ok tr => .ok (hr.union tr)

/-! ## The join engine (src/join.rs)

A joinable source opens into a mask and an access (`Join::open`); hibitset's
`BitSetAnd` is embedded as `Finset` intersection and `BitIter` as iteration
of a finite bitset in ascending index order (`Finset.sort`). -/

/-- An opened joinable source: its mask and its access function
(`Join::get`, total here; the source's `get` is unsafe and only ever called
at indices inside the mask). -/
structure JoinSource (α : Type) where
  mask : Finset Nat
  get : Nat → α

/-- The indices a two-source tuple join iterates: the `define_join!` macro
opens both children and takes `BitSetAnd` of their masks, and `JoinIter`
walks that mask's `BitIter` in ascending order. -/
def joinIndices {α β : Type} (a : JoinSource α) (b : JoinSource β) :
    List Nat :=
  maskIter (a.mask ∩ b.mask)

/-- The items a two-source tuple join produces: `JoinIter::next` maps each
index from the mask iterator through tuple `Join::get`, which pairs the
children's `get` at that index. -/
def joinItems {α β : Type} (a : JoinSource α) (b : JoinSource β) :
    List (α × β) :=
  (joinIndices a b).map (fun i => (a.get i, b.get i))

/-! ## Constrainedness (src/join.rs, `BitSetConstrained`)

The shape of a composed mask, as built by the `Join` impls: finite bitsets
(`BitSet`/`AtomicBitSet`), the universal `BitSetAll`, and the four
combinators. -/

/-- A composed hibitset mask shape; `bnot`/`band`/`bor`/`bxor` stand for
`BitSetNot`/`BitSetAnd`/`BitSetOr`/`BitSetXor`. -/
inductive MaskExpr where
  | bitset (s : Finset Nat)
  | atomicBitset (s : Finset Nat)
  | all
  | bnot (a : MaskExpr)
  | band (a b : MaskExpr)
  | bor (a b : MaskExpr)
  | bxor (a b : MaskExpr)
deriving DecidableEq

/-- `BitSetConstrained::is_constrained` from src/join.rs: finite bitsets are
constrained, `BitSetAll` is not, `Not` flips, `And` needs any operand
constrained, `Or`/`Xor` need all operands constrained. -/
def MaskExpr.isConstrained : MaskExpr → Bool
  | .bitset _ => true
  | .atomicBitset _ => true
  | .all => false
  | .bnot a => !a.isConstrained
  | .band a b => a.isConstrained || b.isConstrained
  | .bor a b => a.isConstrained && b.isConstrained
  | .bxor a b => a.isConstrained && b.isConstrained

/-- `JoinIterUnconstrained` error from src/join.rs. -/
inductive JoinIterUnconstrained where
  | unconstrained
deriving DecidableEq, Repr

/-- `JoinIter::new` (reached from `join()`): opens the join and refuses an
unconstrained mask.  The opened mask stands in for the built iterator. -/
def joinNew (m : MaskExpr) : Except JoinIterUnconstrained MaskExpr :=
  if m.isConstrained then .ok m else .error .unconstrained

/-- `JoinIter::new_unconstrained` (reached from `join_unconstrained()`):
opens the join with no constrainedness check. -/
def joinNewUnconstrained (m : MaskExpr) :
    Except JoinIterUnconstrained MaskExpr :=
  .ok m

/-- The mask of `MaybeJoin` (`maybe()`): always `BitSetAll`, whatever the
inner source's mask is. -/
def maybeMask (_inner : MaskExpr) : MaskExpr :=
  .all

/-! ## Raw storages (src/storage.rs)

The three `RawStorage` shapes.  Uninitialised memory (`MaybeUninit` slots
and `set_len`-exposed gaps) is embedded as `none`; the unsafe `get`s
therefore return `Option` values, and reads that the source would make of
uninitialised memory come out as `none` (these are unreachable under the
masked-storage discipline). -/

/-- `VecStorage`: a vector of possibly-uninitialised cells. -/
structure VecStorage (T : Type) where
  data : List (Option T)

namespace VecStorage

variable {T : Type}

/-- `VecStorage::get`: read the slot. -/
def get (s : VecStorage T) (i : Nat) : Option T :=
  s.data.getD i none

/-- `VecStorage::insert`: grow with uninitialised slots up to `i + 1` when
needed (the `reserve`/`set_len` pair), then write the slot. -/
def insert (s : VecStorage T) (i : Nat) (v : T) : VecStorage T :=
  let d := if s.data.length ≤ i then
      s.data ++ List.replicate (i + 1 - s.data.length) none
    else s.data
  ⟨d.set i (some v)⟩

/-- Writing through `VecStorage::get_mut` (used by masked `insert` on an
occupied slot): overwrite the slot in place. -/
def writeAt (s : VecStorage T) (i : Nat) (v : T) : VecStorage T :=
  ⟨s.data.set i (some v)⟩

/-- `VecStorage::remove`: `ptr::read` of the slot — the value is returned
and the memory is left as-is. -/
def remove (s : VecStorage T) (i : Nat) : Option T × VecStorage T :=
  (s.data.getD i none, s)

end VecStorage

/-- `Vec::swap_remove(i)`: return element `i`, move the last element into
its place, and shrink by one. -/
def swapRemove {α : Type} (l : List α) (i : Nat) : Option α × List α :=
  match l.getLast? with
  | none => (none, l)
  | some last => (l[i]?, (l.set i last).dropLast)

/-- `DenseVecStorage`: a sparse vector of positions (`data`), the packed
values, and the packed back-pointers to sparse indices. -/
structure DenseVecStorage (T : Type) where
  data : List (Option Nat)
  values : List T
  indexes : List Nat

namespace DenseVecStorage

variable {T : Type}

/-- `DenseVecStorage::get`: read the packed position for the index, then the
packed value there. -/
def get (s : DenseVecStorage T) (i : Nat) : Option T :=
  (s.data.getD i none).bind (fun d => s.values[d]?)

/-- `DenseVecStorage::insert`: grow `data` with uninitialised slots when
needed, point index `i` at the end of the packed vectors, and push the
index and the value. -/
def insert (s : DenseVecStorage T) (i : Nat) (v : T) : DenseVecStorage T :=
  let d := if s.data.length ≤ i then
      s.data ++ List.replicate (i + 1 - s.data.length) none
    else s.data
  ⟨d.set i (some s.values.length), s.values ++ [v], s.indexes ++ [i]⟩

/-- Writing through `DenseVecStorage::get_mut`: overwrite the packed value
at the position stored for the index. -/
def writeAt (s : DenseVecStorage T) (i : Nat) (v : T) : DenseVecStorage T :=
  match s.data.getD i none with
  | none => s
  | some d => ⟨s.data, s.values.set d v, s.indexes⟩

/-- `DenseVecStorage::remove`: read the packed position `dind`; repoint the
sparse slot of the last packed element at `dind`; swap-remove the
back-pointer and the value at `dind`, returning the removed value. -/
def remove (s : DenseVecStorage T) (i : Nat) :
    Option T × DenseVecStorage T :=
  match s.data.getD i none with
  | none => (none, s)
  | some d =>
    let lastIndex := s.indexes.getLast?.getD 0
    let data := s.data.set lastIndex (some d)
    let pv := swapRemove s.values d
    let pi := swapRemove s.indexes d
    (pv.1, ⟨data, pv.2, pi.2⟩)

end DenseVecStorage

/-- `HashMapStorage`: a hash map from index to cell, embedded as a function
to `Option`. -/
structure HashMapStorage (T : Type) where
  map : Nat → Option T

namespace HashMapStorage

variable {T : Type}

/-- `HashMapStorage::get`: look the key up. -/
def get (s : HashMapStorage T) (i : Nat) : Option T :=
  s.map i

/-- `HashMapStorage::insert`: bind the key. -/
def insert (s : HashMapStorage T) (i : Nat) (v : T) : HashMapStorage T :=
  ⟨fun j => if j = i then some v else s.map j⟩

/-- Writing through `HashMapStorage::get_mut`: overwrite the cell. -/
def writeAt (s : HashMapStorage T) (i : Nat) (v : T) : HashMapStorage T :=
  ⟨fun j => if j = i then some v else s.map j⟩

/-- `HashMapStorage::remove`: unbind the key, returning its value. -/
def remove (s : HashMapStorage T) (i : Nat) :
    Option T × HashMapStorage T :=
  (s.map i, ⟨fun j => if j = i then none else s.map j⟩)

end HashMapStorage

/-- The `RawStorage` trait surface (src/storage.rs), as used by
`MaskedStorage`: `get`, `insert`, `remove`, and writing through `get_mut`. -/
structure RawOps (σ T : Type) where
  get : σ → Nat → Option T
  insert : σ → Nat → T → σ
  writeAt : σ → Nat → T → σ
  remove : σ → Nat → Option T × σ

/-- The `RawStorage` impl for `VecStorage`. -/
def vecOps (T : Type) : RawOps (VecStorage T) T :=
  ⟨VecStorage.get, VecStorage.insert, VecStorage.writeAt, VecStorage.remove⟩

/-- The `RawStorage` impl for `DenseVecStorage`. -/
def denseOps (T : Type) : RawOps (DenseVecStorage T) T :=
  ⟨DenseVecStorage.get, DenseVecStorage.insert, DenseVecStorage.writeAt,
   DenseVecStorage.remove⟩

/-- The `RawStorage` impl for `HashMapStorage`. -/
def hashOps (T : Type) : RawOps (HashMapStorage T) T :=
  ⟨HashMapStorage.get, HashMapStorage.insert, HashMapStorage.writeAt,
   HashMapStorage.remove⟩

/-! ## Masked storage (src/masked.rs) -/

/-- `MaskedStorage`: an occupancy bitset over a raw storage. -/
structure MaskedStorage (σ : Type) where
  mask : Finset Nat
  storage : σ

namespace MaskedStorage

variable {σ T : Type}

/-- `MaskedStorage::get`: gated by the mask. -/
def get (ops : RawOps σ T) (S : MaskedStorage σ) (i : Nat) : Option T :=
  if i ∈ S.mask then ops.get S.storage i else none

/-- `MaskedStorage::insert`: on an occupied index, swap through `get_mut`
and return the old value; otherwise set the mask bit and raw-insert,
returning `none`. -/
def insert (ops : RawOps σ T) (S : MaskedStorage σ) (i : Nat) (v : T) :
    Option T × MaskedStorage σ :=
  if i ∈ S.mask then
    (ops.get S.storage i, { S with storage := ops.writeAt S.storage i v })
  else
    (none, ⟨Insert.insert i S.mask, ops.insert S.storage i v⟩)

/-- `MaskedStorage::remove`: if the mask bit was set, clear it and
raw-remove. -/
def remove (ops : RawOps σ T) (S : MaskedStorage σ) (i : Nat) :
    Option T × MaskedStorage σ :=
  if i ∈ S.mask then
    let p := ops.remove S.storage i
    (p.1, ⟨S.mask.erase i, p.2⟩)
  else (none, S)

/-- The `Join` impl for `&MaskedStorage` (src/masked.rs): mask is the
occupancy bitset, `get` reads the raw storage. -/
def toJoinSource (ops : RawOps σ T) (S : MaskedStorage σ) :
    JoinSource (Option T) :=
  ⟨S.mask, fun i => ops.get S.storage i⟩

end MaskedStorage

/-- Scenario E4's first source: a masked dense storage with entries at
indices 1, 3, 5, 7. -/
def e4dense : MaskedStorage (DenseVecStorage Nat) :=
  (MaskedStorage.insert (denseOps Nat)
    ((MaskedStorage.insert (denseOps Nat)
      ((MaskedStorage.insert (denseOps Nat)
        ((MaskedStorage.insert (denseOps Nat)
          ⟨∅, ⟨[], [], []⟩⟩ 1 10).2) 3 30).2) 5 50).2) 7 70).2

/-- Scenario E4's second source: a masked packed (`VecStorage`) storage with
entries at indices 3, 4, 5, 6. -/
def e4vec : MaskedStorage (VecStorage Nat) :=
  (MaskedStorage.insert (vecOps Nat)
    ((MaskedStorage.insert (vecOps Nat)
      ((MaskedStorage.insert (vecOps Nat)
        ((MaskedStorage.insert (vecOps Nat)
          ⟨∅, ⟨[]⟩⟩ 3 3).2) 4 4).2) 5 5).2) 6 6).2

/-! # Theorems -/

/-! ## Helper lemmas about the bitset iterator -/

theorem maskIter_mem (s : Finset Nat) (i : Nat) : i ∈ maskIter s ↔ i ∈ s := by
  unfold maskIter maskBound
  simp only [List.mem_filter, List.mem_range, decide_eq_true_eq]
  constructor
  · exact fun h => h.2
  · intro h
    exact ⟨Nat.lt_succ_of_le (Finset.le_sup (f := id) h), h⟩

theorem maskIter_nodup (s : Finset Nat) : (maskIter s).Nodup :=
  (List.nodup_range _).filter _

theorem maskIter_sorted (s : Finset Nat) :
    List.Sorted (· < ·) (maskIter s) :=
  List.Pairwise.filter _ (List.pairwise_lt_range _)

theorem maskIter_empty : maskIter ∅ = [] := by decide

/-- C1 counterexample: with `a = {reads: {0}}` and `b = {writes: {0}}`,
after `a.union(&b)` the resource `0` sits in *both* the reads set and the
writes set, while the claim predicts reads
`= (a.reads ∪ b.reads) \ writes = ∅`. -/
theorem rwUnion_claim_counterexample :
    (0 ∈ (RwResources.union (α := Nat) ⟨{0}, ∅⟩ ⟨∅, {0}⟩).reads ∧
     0 ∈ (RwResources.union (α := Nat) ⟨{0}, ∅⟩ ⟨∅, {0}⟩).writes) ∧
    (RwResources.union (α := Nat) ⟨{0}, ∅⟩ ⟨∅, {0}⟩).reads ≠
      (({0} : Finset Nat) ∪ ∅) \
        (RwResources.union (α := Nat) ⟨{0}, ∅⟩ ⟨∅, {0}⟩).writes := by
  decide

/-- C1 (amended): after `a.union(&b)` the writes set is the union of the two
writes sets, and the reads set is `a`'s reads together with `b`'s reads
minus the combined writes — `a`'s own reads are *not* filtered, so a
resource that `a` holds only as a read and `b` holds as a write ends up in
both the reads set and the writes set. -/
theorem rwUnion_spec {α : Type} [DecidableEq α]
    (a b : RwResources α) (r : α) (hr : r ∈ a.reads) (hw : r ∈ b.writes) :
    (a.union b).writes = a.writes ∪ b.writes ∧
    (a.union b).reads = a.reads ∪ (b.reads \ (a.writes ∪ b.writes)) ∧
    r ∈ (a.union b).reads ∧ r ∈ (a.union b).writes := by
  refine ⟨rfl, ?_, ?_, ?_⟩
  · show a.reads ∪ b.reads.filter (fun x => x ∉ a.writes ∪ b.writes) = _
    ext x
    simp [Finset.mem_union, Finset.mem_filter, Finset.mem_sdiff]
  · show r ∈ a.reads ∪ b.reads.filter (fun x => x ∉ a.writes ∪ b.writes)
    exact Finset.mem_union_left _ hr
  · exact Finset.mem_union_right _ hw

/-- C1 witness for `rwUnion_spec` at `a = {reads: {0}}`,
`b = {writes: {0}}`, `r = 0`. -/
theorem rwUnion_spec_witness :
    ((0 : Nat) ∈ (⟨{0}, ∅⟩ : RwResources Nat).reads ∧
     (0 : Nat) ∈ (⟨∅, {0}⟩ : RwResources Nat).writes) ∧
    ((RwResources.union (α := Nat) ⟨{0}, ∅⟩ ⟨∅, {0}⟩).writes = ∅ ∪ {0} ∧
     (RwResources.union (α := Nat) ⟨{0}, ∅⟩ ⟨∅, {0}⟩).reads =
       {0} ∪ (∅ \ (∅ ∪ {0})) ∧
     0 ∈ (RwResources.union (α := Nat) ⟨{0}, ∅⟩ ⟨∅, {0}⟩).reads ∧
     0 ∈ (RwResources.union (α := Nat) ⟨{0}, ∅⟩ ⟨∅, {0}⟩).writes) :=
  ⟨⟨by decide, by decide⟩,
   rwUnion_spec ⟨{0}, ∅⟩ ⟨∅, {0}⟩ 0 (by decide) (by decide)⟩

/-- C2: if both children's `check_resources` succeed with `ra` and `rb`,
then `Par(A, B).check_resources()` errors exactly when `ra` and `rb`
conflict — where conflicting means some write of one side overlaps a read
or write of the other — and otherwise returns the union of `ra` and
`rb`. -/
theorem par_checkResources_spec {α : Type} [DecidableEq α]
    (A B : Sys α) (ra rb : RwResources α)
    (ha : A.checkResources = .ok ra) (hb : B.checkResources = .ok rb) :
    ((∃ e, (Sys.par A B).checkResources = .error e) ↔ ra.conflictsWith rb) ∧
    (¬ ra.conflictsWith rb →
      (Sys.par A B).checkResources = .ok (ra.union rb)) ∧
    (ra.conflictsWith rb ↔
      ∃ r, (r ∈ ra.writes ∧ (r ∈ rb.reads ∨ r ∈ rb.writes)) ∨
        (r ∈ rb.writes ∧ (r ∈ ra.reads ∨ r ∈ ra.writes))) := by
  have hpar : (Sys.par A B).checkResources =
      if ra.conflictsWith rb then .error ⟨"Par"⟩ else .ok (ra.union rb) := by
    simp only [Sys.checkResources, ha, hb]
  refine ⟨?_, ?_, ?_⟩
  · constructor
    · rintro ⟨e, he⟩
      rw [hpar] at he
      by_contra hc
      rw [if_neg hc] at he
      exact Except.noConfusion he
    · intro hc
      exact ⟨⟨"Par"⟩, by rw [hpar, if_pos hc]⟩
  · intro hc
    rw [hpar, if_neg hc]
  · unfold RwResources.conflictsWith
    simp only [Finset.Nonempty, Finset.mem_inter]
    constructor
    · rintro (⟨r, h1, h2⟩ | ⟨r, h1, h2⟩ | ⟨r, h1, h2⟩ | ⟨r, h1, h2⟩)
      · exact ⟨r, Or.inl ⟨h1, Or.inl h2⟩⟩
      · exact ⟨r, Or.inl ⟨h1, Or.inr h2⟩⟩
      · exact ⟨r, Or.inr ⟨h1, Or.inl h2⟩⟩
      · exact ⟨r, Or.inr ⟨h1, Or.inr h2⟩⟩
    · rintro ⟨r, ⟨h1, h2 | h2⟩ | ⟨h1, h2 | h2⟩⟩
      · exact Or.inl ⟨r, h1, h2⟩
      · exact Or.inr (Or.inl ⟨r, h1, h2⟩)
      · exact Or.inr (Or.inr (Or.inl ⟨r, h1, h2⟩))
      · exact Or.inr (Or.inr (Or.inr ⟨r, h1, h2⟩))

/-- C2 witness for `par_checkResources_spec`: `A` writes resource `0`, `B`
reads resource `0`, both as leaf systems. -/
theorem par_checkResources_spec_witness :
    (Sys.checkResources (α := Nat) (.leaf (.ok ⟨∅, {0}⟩)) = .ok ⟨∅, {0}⟩ ∧
     Sys.checkResources (α := Nat) (.leaf (.ok ⟨{0}, ∅⟩)) = .ok ⟨{0}, ∅⟩) ∧
    (((∃ e, (Sys.par (α := Nat) (.leaf (.ok ⟨∅, {0}⟩))
        (.leaf (.ok ⟨{0}, ∅⟩))).checkResources = .error e) ↔
      RwResources.conflictsWith (α := Nat) ⟨∅, {0}⟩ ⟨{0}, ∅⟩) ∧
     (¬ RwResources.conflictsWith (α := Nat) ⟨∅, {0}⟩ ⟨{0}, ∅⟩ →
      (Sys.par (α := Nat) (.leaf (.ok ⟨∅, {0}⟩))
        (.leaf (.ok ⟨{0}, ∅⟩))).checkResources =
        .ok (RwResources.union ⟨∅, {0}⟩ ⟨{0}, ∅⟩)) ∧
     (RwResources.conflictsWith (α := Nat) ⟨∅, {0}⟩ ⟨{0}, ∅⟩ ↔
      ∃ r, (r ∈ (⟨∅, {0}⟩ : RwResources Nat).writes ∧
              (r ∈ (⟨{0}, ∅⟩ : RwResources Nat).reads ∨
               r ∈ (⟨{0}, ∅⟩ : RwResources Nat).writes)) ∨
           (r ∈ (⟨{0}, ∅⟩ : RwResources Nat).writes ∧
              (r ∈ (⟨∅, {0}⟩ : RwResources Nat).reads ∨
               r ∈ (⟨∅, {0}⟩ : RwResources Nat).writes)))) :=
  ⟨⟨rfl, rfl⟩, par_checkResources_spec _ _ _ _ rfl rfl⟩

/-- C5: on a new allocator three `allocate()` calls return `(0,1)`, `(1,1)`,
`(2,1)`; after `kill((1,1))` succeeds the next `allocate()` returns `(1,2)`
(index reused, generation bumped), `is_alive((1,1))` is false and
`is_alive((1,2))` is true. -/
theorem allocate_kill_scenario :
    (Allocator.init.allocate.1 = ⟨0, 1⟩) ∧
    (Allocator.init.allocate.2.allocate.1 = ⟨1, 1⟩) ∧
    (Allocator.init.allocate.2.allocate.2.allocate.1 = ⟨2, 1⟩) ∧
    ((Allocator.init.allocate.2.allocate.2.allocate.2.kill ⟨1, 1⟩).1 =
      .ok ()) ∧
    ((Allocator.init.allocate.2.allocate.2.allocate.2.kill
        ⟨1, 1⟩).2.allocate.1 = ⟨1, 2⟩) ∧
    ((Allocator.init.allocate.2.allocate.2.allocate.2.kill
        ⟨1, 1⟩).2.allocate.2.isAlive ⟨1, 1⟩ = false) ∧
    ((Allocator.init.allocate.2.allocate.2.allocate.2.kill
        ⟨1, 1⟩).2.allocate.2.isAlive ⟨1, 2⟩ = true) := by
  decide

/-- C10: killing a non-alive entity, exclusively or atomically, reports
`WrongGeneration` and returns with the allocator state untouched (the
guard precedes every mutation). -/
theorem kill_dead_frame (s : Allocator) (e : Entity)
    (h : s.isAlive e = false) :
    s.kill e = (.error .wrongGeneration, s) ∧
    s.killAtomic e = (.error .wrongGeneration, s) := by
  constructor
  · unfold Allocator.kill
    simp [h]
  · unfold Allocator.killAtomic
    simp [h]

/-- C10 witness for `kill_dead_frame`: the empty allocator holds no entity
`(0, 1)`. -/
theorem kill_dead_frame_witness :
    (Allocator.init.isAlive ⟨0, 1⟩ = false) ∧
    (Allocator.init.kill ⟨0, 1⟩ = (.error .wrongGeneration, Allocator.init) ∧
     Allocator.init.killAtomic ⟨0, 1⟩ =
       (.error .wrongGeneration, Allocator.init)) :=
  ⟨by decide, kill_dead_frame Allocator.init ⟨0, 1⟩ (by decide)⟩

/-- C8: `join()` errors with `JoinIterUnconstrained` exactly when the
composed mask is unconstrained; constrainedness follows the
`BitSetConstrained` rules (finite bitsets constrained, `All` not, `Not`
flips, `And` any, `Or`/`Xor` all); the mask of `maybe()` alone is `All`, so
joining it errors; `join_unconstrained()` never produces this error. -/
theorem joinNew_constrained_spec (m : MaskExpr) :
    ((∃ e, joinNew m = .error e) ↔ m.isConstrained = false) ∧
    ((∀ s, (MaskExpr.bitset s).isConstrained = true) ∧
     (∀ s, (MaskExpr.atomicBitset s).isConstrained = true) ∧
     MaskExpr.all.isConstrained = false ∧
     (∀ a, (MaskExpr.bnot a).isConstrained = !a.isConstrained) ∧
     (∀ a b, (MaskExpr.band a b).isConstrained =
       (a.isConstrained || b.isConstrained)) ∧
     (∀ a b, (MaskExpr.bor a b).isConstrained =
       (a.isConstrained && b.isConstrained)) ∧
     (∀ a b, (MaskExpr.bxor a b).isConstrained =
       (a.isConstrained && b.isConstrained))) ∧
    (∃ e, joinNew (maybeMask m) = .error e) ∧
    (∀ m', ¬ ∃ e, joinNewUnconstrained m' = .error e) := by
  refine ⟨?_, ⟨fun _ => rfl, fun _ => rfl, rfl, fun _ => rfl,
    fun _ _ => rfl, fun _ _ => rfl, fun _ _ => rfl⟩, ?_, ?_⟩
  · constructor
    · rintro ⟨e, he⟩
      by_contra hc
      have hc' : m.isConstrained = true := by
        cases hm : m.isConstrained
        · exact absurd hm hc
        · rfl
      unfold joinNew at he
      rw [hc'] at he
      exact Except.noConfusion he
    · intro hc
      refine ⟨.unconstrained, ?_⟩
      unfold joinNew
      rw [hc]
      rfl
  · exact ⟨.unconstrained, rfl⟩
  · rintro m' ⟨e, he⟩
    exact Except.noConfusion he

/-- C7: a two-source tuple join visits exactly the indices in the pointwise
intersection of the two masks, each exactly once in ascending order, and
the item produced at index `i` is the pair of the children's `get` at `i`;
concretely (E4), for a masked dense storage with entries at `{1, 3, 5, 7}`
and a masked packed storage with entries at `{3, 4, 5, 6}` the visited
indices are exactly `[3, 5]`. -/
theorem joinPair_spec {α β : Type} (a : JoinSource α) (b : JoinSource β) :
    List.Sorted (· < ·) (joinIndices a b) ∧
    (joinIndices a b).Nodup ∧
    (∀ i, i ∈ joinIndices a b ↔ i ∈ a.mask ∧ i ∈ b.mask) ∧
    joinItems a b = (joinIndices a b).map (fun i => (a.get i, b.get i)) ∧
    joinIndices (MaskedStorage.toJoinSource (denseOps Nat) e4dense)
      (MaskedStorage.toJoinSource (vecOps Nat) e4vec) = [3, 5] := by
  refine ⟨maskIter_sorted _, maskIter_nodup _, ?_, rfl, by decide⟩
  intro i
  rw [joinIndices, maskIter_mem, Finset.mem_inter]

/-! ## Helper lemmas for the raw storage round-trips -/

theorem getD_set_lt {α : Type} (l : List α) (i : Nat) (a d : α)
    (h : i < l.length) : (l.set i a).getD i d = a := by
  rw [List.getD_eq_getElem _ _ (by simpa using h)]
  simp [List.getElem_set_self]

theorem padded_length_lt {T : Type} (l : List (Option T)) (i : Nat) :
    i < (if l.length ≤ i then l ++ List.replicate (i + 1 - l.length) none
      else l).length := by
  split
  · rename_i h
    rw [List.length_append, List.length_replicate]
    omega
  · rename_i h
    omega

theorem VecStorage.get_insert_self {T : Type} (st : VecStorage T) (i : Nat)
    (v : T) : (st.insert i v).get i = some v := by
  unfold VecStorage.insert VecStorage.get
  exact getD_set_lt _ _ _ _ (padded_length_lt st.data i)

theorem DenseVecStorage.data_insert_self {T : Type} (st : DenseVecStorage T)
    (i : Nat) (v : T) :
    (st.insert i v).data.getD i none = some st.values.length := by
  unfold DenseVecStorage.insert
  exact getD_set_lt _ _ _ _ (padded_length_lt st.data i)

theorem DenseVecStorage.getDense_insert_self {T : Type} (st : DenseVecStorage T)
    (i : Nat) (v : T) : (st.insert i v).get i = some v := by
  unfold DenseVecStorage.get
  rw [DenseVecStorage.data_insert_self]
  show (st.values ++ [v])[st.values.length]? = some v
  exact List.getElem?_concat_length _ _

theorem DenseVecStorage.remove_insert_self {T : Type}
    (st : DenseVecStorage T) (i : Nat) (v : T) :
    ((st.insert i v).remove i).1 = some v := by
  unfold DenseVecStorage.remove
  rw [DenseVecStorage.data_insert_self]
  show (swapRemove (st.values ++ [v]) st.values.length).1 = some v
  unfold swapRemove
  rw [List.getLast?_concat]
  exact List.getElem?_concat_length _ _

/-- C9: over each of the three raw storage shapes, for an unoccupied index
`i`: `insert(i, v)` returns `None`; then `get(i) = Some(v)`; then
`remove(i) = Some(v)`; and after that `get(i) = None`. -/
theorem maskedStorage_roundtrip {T : Type}
    (sv : MaskedStorage (VecStorage T))
    (sd : MaskedStorage (DenseVecStorage T))
    (sh : MaskedStorage (HashMapStorage T)) (i : Nat) (v : T)
    (hv : i ∉ sv.mask) (hd : i ∉ sd.mask) (hh : i ∉ sh.mask) :
    ((MaskedStorage.insert (vecOps T) sv i v).1 = none ∧
     MaskedStorage.get (vecOps T)
       (MaskedStorage.insert (vecOps T) sv i v).2 i = some v ∧
     (MaskedStorage.remove (vecOps T)
       (MaskedStorage.insert (vecOps T) sv i v).2 i).1 = some v ∧
     MaskedStorage.get (vecOps T)
       (MaskedStorage.remove (vecOps T)
         (MaskedStorage.insert (vecOps T) sv i v).2 i).2 i = none) ∧
    ((MaskedStorage.insert (denseOps T) sd i v).1 = none ∧
     MaskedStorage.get (denseOps T)
       (MaskedStorage.insert (denseOps T) sd i v).2 i = some v ∧
     (MaskedStorage.remove (denseOps T)
       (MaskedStorage.insert (denseOps T) sd i v).2 i).1 = some v ∧
     MaskedStorage.get (denseOps T)
       (MaskedStorage.remove (denseOps T)
         (MaskedStorage.insert (denseOps T) sd i v).2 i).2 i = none) ∧
    ((MaskedStorage.insert (hashOps T) sh i v).1 = none ∧
     MaskedStorage.get (hashOps T)
       (MaskedStorage.insert (hashOps T) sh i v).2 i = some v ∧
     (MaskedStorage.remove (hashOps T)
       (MaskedStorage.insert (hashOps T) sh i v).2 i).1 = some v ∧
     MaskedStorage.get (hashOps T)
       (MaskedStorage.remove (hashOps T)
         (MaskedStorage.insert (hashOps T) sh i v).2 i).2 i = none) := by
  refine ⟨?_, ?_, ?_⟩
  · rw [MaskedStorage.insert, if_neg hv]
    refine ⟨rfl, ?_, ?_, ?_⟩
    · rw [MaskedStorage.get, if_pos (Finset.mem_insert_self i _)]
      exact VecStorage.get_insert_self _ _ _
    · rw [MaskedStorage.remove, if_pos (Finset.mem_insert_self i _)]
      exact VecStorage.get_insert_self _ _ _
    · rw [MaskedStorage.remove, if_pos (Finset.mem_insert_self i _)]
      rw [MaskedStorage.get, if_neg (Finset.not_mem_erase i _)]
  · rw [MaskedStorage.insert, if_neg hd]
    refine ⟨rfl, ?_, ?_, ?_⟩
    · rw [MaskedStorage.get, if_pos (Finset.mem_insert_self i _)]
      exact DenseVecStorage.getDense_insert_self _ _ _
    · rw [MaskedStorage.remove, if_pos (Finset.mem_insert_self i _)]
      exact DenseVecStorage.remove_insert_self _ _ _
    · rw [MaskedStorage.remove, if_pos (Finset.mem_insert_self i _)]
      rw [MaskedStorage.get, if_neg (Finset.not_mem_erase i _)]
  · rw [MaskedStorage.insert, if_neg hh]
    refine ⟨rfl, ?_, ?_, ?_⟩
    · rw [MaskedStorage.get, if_pos (Finset.mem_insert_self i _)]
      show (if i = i then some v else sh.storage.map i) = some v
      rw [if_pos rfl]
    · rw [MaskedStorage.remove, if_pos (Finset.mem_insert_self i _)]
      show (if i = i then some v else sh.storage.map i) = some v
      rw [if_pos rfl]
    · rw [MaskedStorage.remove, if_pos (Finset.mem_insert_self i _)]
      rw [MaskedStorage.get, if_neg (Finset.not_mem_erase i _)]

/-! ## Generation arithmetic -/

theorem genRaised_pos (g : Int) : 1 ≤ genRaised g := by
  unfold genRaised
  split <;> omega

theorem genRaised_of_pos {g : Int} (h : 0 < g) : genRaised g = g := by
  unfold genRaised
  rw [if_pos h]

theorem genRaised_idem (g : Int) : genRaised (genRaised g) = genRaised g :=
  genRaised_of_pos (lt_of_lt_of_le Int.zero_lt_one (genRaised_pos g))

theorem genKilled_nonpos (g : Int) : genKilled g ≤ 0 := by
  unfold genKilled
  split <;> omega

theorem genKilled_of_pos {g : Int} (h : 0 < g) : genKilled g = -g := by
  unfold genKilled
  rw [if_pos h]

theorem genKilled_idem (g : Int) : genKilled (genKilled g) = genKilled g := by
  by_cases h : 0 < g
  · rw [genKilled_of_pos h]
    unfold genKilled
    rw [if_neg (by omega)]
  · unfold genKilled
    rw [if_neg h, if_neg h]

/-! ## List access lemmas -/

theorem getD_eq_getElem?' {α : Type} (l : List α) (i : Nat) (d : α) :
    l.getD i d = (l[i]?).getD d := by
  rcases Nat.lt_or_ge i l.length with h | h
  · rw [List.getD_eq_getElem l d h, List.getElem?_eq_getElem h]
    rfl
  · rw [List.getD_eq_default l d h, List.getElem?_eq_none h]
    rfl

theorem getD_set_ne {α : Type} (l : List α) (i j : Nat) (a d : α)
    (h : i ≠ j) : (l.set i a).getD j d = l.getD j d := by
  rw [getD_eq_getElem?', getD_eq_getElem?', List.getElem?_set_ne h]

theorem getElem?_set_formula {α : Type} (l : List α) (i j : Nat) (a : α) :
    (l.set i a)[j]? = (l[j]?).map (fun v => if j = i then a else v) := by
  rcases eq_or_ne j i with rfl | h
  · rcases Nat.lt_or_ge j l.length with hl | hl
    · rw [List.getElem?_set_eq_of_lt a hl, List.getElem?_eq_getElem hl]
      simp
    · rw [List.getElem?_eq_none hl, List.getElem?_eq_none (by simpa using hl)]
      rfl
  · rw [List.getElem?_set_ne (by omega)]
    rcases hv : l[j]? with _ | v
    · rfl
    · simp [h]

theorem padTo_length (g : List Int) (n : Nat) :
    (Allocator.padTo g n).length = max g.length n := by
  unfold Allocator.padTo
  rw [List.length_append, List.length_replicate]
  omega

theorem padTo_getElem? (g : List Int) (n j : Nat) :
    (Allocator.padTo g n)[j]? =
      if j < g.length then g[j]? else if j < n then some 0 else none := by
  unfold Allocator.padTo
  rcases Nat.lt_or_ge j g.length with h | h
  · rw [List.getElem?_append, if_pos h, if_pos h]
  · rw [if_neg (by omega)]
    rcases Nat.lt_or_ge j (max g.length n) with h2 | h2
    · have hj : j - g.length < (List.replicate (n - g.length) (0 : Int)).length := by
        rw [List.length_replicate]
        omega
      rw [List.getElem?_append_right h, List.getElem?_eq_getElem hj,
        List.getElem_replicate, if_pos (by omega)]
    · rw [List.getElem?_eq_none (by rw [List.length_append, List.length_replicate]; omega),
        if_neg (by omega)]

theorem padTo_getD (g : List Int) (n j : Nat) :
    (Allocator.padTo g n).getD j 0 = g.getD j 0 := by
  rw [getD_eq_getElem?', getD_eq_getElem?', padTo_getElem?]
  rcases Nat.lt_or_ge j g.length with h | h
  · rw [if_pos h]
  · rw [if_neg (by omega), List.getElem?_eq_none h]
    split <;> rfl

theorem take_getLast? {α : Type} (l : List α) (n : Nat) (d : α)
    (h0 : 0 < n) (hn : n ≤ l.length) :
    (l.take n).getLast? = some (l.getD (n - 1) d) := by
  have hlen : (l.take n).length = n := by
    rw [List.length_take]
    omega
  have hlt : n - 1 < l.length := by omega
  rw [List.getLast?_eq_getElem?, hlen, List.getElem?_take, if_pos (by omega),
    List.getElem?_eq_getElem hlt, getD_eq_getElem?',
    List.getElem?_eq_getElem hlt]
  rfl

theorem take_dropLast {α : Type} (l : List α) (n : Nat) (hn : n ≤ l.length) :
    (l.take n).dropLast = l.take (n - 1) := by
  rw [List.dropLast_eq_take, List.length_take, List.take_take]
  congr 1
  omega

theorem getD_mem {α : Type} (l : List α) (n : Nat) (d : α)
    (h : n < l.length) : l.getD n d ∈ l := by
  rw [List.getD_eq_getElem l d h]
  exact List.getElem_mem h

/-! ## Helper lemmas for the atomic phase -/

theorem isAlive_iff (s : Allocator) (e : Entity) :
    s.isAlive e = true ↔ s.entity e.index = some e := by
  unfold Allocator.isAlive
  exact decide_eq_true_iff

theorem entity_some_mono (s t : Allocator) (i : Nat) (e : Entity)
    (hg : t.generations = s.generations)
    (hr : s.raisedAtomic ⊆ t.raisedAtomic)
    (h : s.entity i = some e) : t.entity i = some e := by
  unfold Allocator.entity Allocator.generation at h ⊢
  rw [hg]
  by_cases h0 : 0 < s.generations.getD i 0
  · rw [if_pos h0] at h ⊢
    exact h
  · rw [if_neg h0] at h ⊢
    by_cases hm : i ∈ s.raisedAtomic
    · rw [if_pos hm] at h
      rw [if_pos (hr hm)]
      exact h
    · rw [if_neg hm] at h
      exact absurd h (by simp)

theorem allocateAtomic_generations (s : Allocator) :
    (s.allocateAtomic).2.generations = s.generations := by
  unfold Allocator.allocateAtomic
  split <;> rfl

theorem allocateAtomic_raised_mono (s : Allocator) :
    s.raisedAtomic ⊆ (s.allocateAtomic).2.raisedAtomic := by
  unfold Allocator.allocateAtomic
  split <;> exact Finset.subset_insert _ _

theorem killAtomic_entity (s : Allocator) (e : Entity) (i : Nat) :
    ((s.killAtomic e).2).entity i = s.entity i := by
  unfold Allocator.killAtomic
  split <;> rfl

theorem killAtomic_ok (s : Allocator) (e : Entity)
    (h : s.isAlive e = true) :
    s.killAtomic e =
      (.ok (),
       { s with killedAtomic := Insert.insert e.index s.killedAtomic }) := by
  unfold Allocator.killAtomic
  rw [if_pos h]

theorem stepAtomicState_entity (s : Allocator) (op : AOp) (i : Nat)
    (e : Entity) (h : s.entity i = some e) :
    (stepAtomicState s op).entity i = some e := by
  cases op with
  | alloc =>
    exact entity_some_mono s _ i e (allocateAtomic_generations s)
      (allocateAtomic_raised_mono s) h
  | kill e' =>
    rw [stepAtomicState, killAtomic_entity]
    exact h

theorem runAtomicState_entity (s : Allocator) (ops : List AOp) (i : Nat)
    (e : Entity) (h : s.entity i = some e) :
    (runAtomicState s ops).entity i = some e := by
  induction ops generalizing s with
  | nil => exact h
  | cons op ops ih =>
    exact ih (stepAtomicState s op) (stepAtomicState_entity s op i e h)

/-! ## Characterizations of the allocator operations -/

theorem allocate_cache_eq (s : Allocator) (i : Nat)
    (h : (s.cache.take s.cacheLen).getLast? = some i) :
    s.allocate = (⟨i, genRaised (s.generation i)⟩,
      { s with cache := (s.cache.take s.cacheLen).dropLast,
               cacheLen := (s.cache.take s.cacheLen).dropLast.length,
               alive := insert i s.alive,
               generations :=
                 s.generations.set i (genRaised (s.generation i)) }) := by
  unfold Allocator.allocate
  dsimp only
  rw [h]
  rfl

theorem allocate_fresh_eq (s : Allocator)
    (h : (s.cache.take s.cacheLen).getLast? = none) :
    s.allocate = (⟨s.indexLen,
        genRaised
          ((Allocator.padTo s.generations (s.indexLen + 1)).getD
            s.indexLen 0)⟩,
      { s with cache := s.cache.take s.cacheLen, cacheLen := 0,
               indexLen := s.indexLen + 1,
               alive := insert s.indexLen s.alive,
               generations :=
                 (Allocator.padTo s.generations (s.indexLen + 1)).set
                   s.indexLen
                   (genRaised
                     ((Allocator.padTo s.generations
                       (s.indexLen + 1)).getD s.indexLen 0)) }) := by
  unfold Allocator.allocate
  dsimp only
  rw [h]
  rfl

theorem allocateAtomic_cache_eq (s : Allocator) (h : 0 < s.cacheLen) :
    s.allocateAtomic = (⟨s.cache.getD (s.cacheLen - 1) 0,
        genRaised (s.generation (s.cache.getD (s.cacheLen - 1) 0))⟩,
      { s with cacheLen := s.cacheLen - 1,
               raisedAtomic :=
                 insert (s.cache.getD (s.cacheLen - 1) 0)
                   s.raisedAtomic }) := by
  unfold Allocator.allocateAtomic
  dsimp only
  rw [if_pos h]

theorem allocateAtomic_fresh_eq (s : Allocator) (h : ¬ 0 < s.cacheLen) :
    s.allocateAtomic = (⟨s.indexLen, genRaised (s.generation s.indexLen)⟩,
      { s with indexLen := s.indexLen + 1,
               raisedAtomic := insert s.indexLen s.raisedAtomic }) := by
  unfold Allocator.allocateAtomic
  dsimp only
  rw [if_neg h]

theorem kill_not_raised_eq (s : Allocator) (e : Entity)
    (h : s.isAlive e = true) (hr : e.index ∉ s.raisedAtomic) :
    s.kill e = (.ok (), Allocator.cachePush
      { s with alive := s.alive.erase e.index,
               killedAtomic := s.killedAtomic.erase e.index,
               generations :=
                 s.generations.set e.index
                   (genKilled (s.generation e.index)) } e.index) := by
  unfold Allocator.kill
  dsimp only
  rw [if_pos h, if_neg hr]
  rfl

theorem kill_raised_eq (s : Allocator) (e : Entity)
    (h : s.isAlive e = true) (hr : e.index ∈ s.raisedAtomic) :
    s.kill e = (.ok (), Allocator.cachePush
      { s with alive := s.alive.erase e.index,
               killedAtomic := s.killedAtomic.erase e.index,
               raisedAtomic := s.raisedAtomic.erase e.index,
               generations :=
                 (Allocator.padTo s.generations s.indexLen).set e.index
                   (genKilled (genRaised
                     ((Allocator.padTo s.generations s.indexLen).getD
                       e.index 0))) } e.index) := by
  unfold Allocator.kill
  dsimp only
  rw [if_pos h, if_pos hr]
  rfl

/-! ## The merge folds -/

theorem raiseFold_fields (l : List Nat) (t : Allocator) :
    (l.foldl Allocator.raiseStep t).raisedAtomic = t.raisedAtomic ∧
    (l.foldl Allocator.raiseStep t).killedAtomic = t.killedAtomic ∧
    (l.foldl Allocator.raiseStep t).cache = t.cache ∧
    (l.foldl Allocator.raiseStep t).cacheLen = t.cacheLen ∧
    (l.foldl Allocator.raiseStep t).indexLen = t.indexLen := by
  induction l generalizing t with
  | nil => exact ⟨rfl, rfl, rfl, rfl, rfl⟩
  | cons i l ih => exact ih (Allocator.raiseStep t i)

theorem raiseFold_alive (l : List Nat) (t : Allocator) :
    (l.foldl Allocator.raiseStep t).alive = t.alive ∪ l.toFinset := by
  induction l generalizing t with
  | nil => simp
  | cons i l ih =>
    show (l.foldl Allocator.raiseStep (Allocator.raiseStep t i)).alive = _
    rw [ih]
    show insert i t.alive ∪ l.toFinset = t.alive ∪ (i :: l).toFinset
    rw [List.toFinset_cons, Finset.insert_union, Finset.union_insert]

theorem raiseFold_gens (l : List Nat) (t : Allocator) (j : Nat) :
    (l.foldl Allocator.raiseStep t).generations[j]? =
      (t.generations[j]?).map
        (fun v => if j ∈ l then genRaised v else v) := by
  induction l generalizing t with
  | nil => simp
  | cons i l ih =>
    show (l.foldl Allocator.raiseStep (Allocator.raiseStep t i)).generations[j]? = _
    rw [ih]
    show ((t.generations.set i (genRaised (t.generation i)))[j]?).map _ = _
    rw [getElem?_set_formula]
    rcases hv : t.generations[j]? with _ | v
    · simp
    · have hval : ∀ h : j = i, t.generation i = v := by
        rintro rfl
        rw [Allocator.generation, getD_eq_getElem?', hv]
        rfl
      simp only [Option.map_some, Option.map_map, Option.map]
      rcases eq_or_ne j i with rfl | hne
      · rw [hval rfl]
        by_cases hm : j ∈ l <;>
          simp [hm, genRaised_idem, List.mem_cons]
      · by_cases hm : j ∈ l <;>
          simp [hm, hne, List.mem_cons]

theorem killFold_fields (l : List Nat) (acc : List Entity) (t : Allocator) :
    (l.foldl Allocator.killStep (acc, t)).2.raisedAtomic = t.raisedAtomic ∧
    (l.foldl Allocator.killStep (acc, t)).2.killedAtomic = t.killedAtomic ∧
    (l.foldl Allocator.killStep (acc, t)).2.cache = t.cache ∧
    (l.foldl Allocator.killStep (acc, t)).2.cacheLen = t.cacheLen ∧
    (l.foldl Allocator.killStep (acc, t)).2.indexLen = t.indexLen := by
  induction l generalizing acc t with
  | nil => exact ⟨rfl, rfl, rfl, rfl, rfl⟩
  | cons i l ih => exact ih _ _

theorem killFold_alive (l : List Nat) (acc : List Entity) (t : Allocator) :
    (l.foldl Allocator.killStep (acc, t)).2.alive =
      t.alive \ l.toFinset := by
  induction l generalizing acc t with
  | nil => simp
  | cons i l ih =>
    show (l.foldl Allocator.killStep
      (acc ++ [⟨i, t.generation i⟩], _)).2.alive = _
    rw [ih]
    show t.alive.erase i \ l.toFinset = t.alive \ (i :: l).toFinset
    ext j
    simp only [Finset.mem_sdiff, Finset.mem_erase, List.toFinset_cons,
      Finset.mem_insert, List.mem_toFinset]
    constructor
    · rintro ⟨⟨h1, h2⟩, h3⟩
      exact ⟨h2, by rintro (rfl | hm) <;> [exact h1 rfl; exact h3 (by simpa using hm)]⟩
    · rintro ⟨h1, h2⟩
      exact ⟨⟨fun hji => h2 (Or.inl hji), h1⟩, fun hm => h2 (Or.inr (by simpa using hm))⟩

theorem killFold_gens (l : List Nat) (acc : List Entity) (t : Allocator)
    (j : Nat) :
    (l.foldl Allocator.killStep (acc, t)).2.generations[j]? =
      (t.generations[j]?).map
        (fun v => if j ∈ l then genKilled v else v) := by
  induction l generalizing acc t with
  | nil => simp
  | cons i l ih =>
    show (l.foldl Allocator.killStep
      (acc ++ [⟨i, t.generation i⟩], _)).2.generations[j]? = _
    rw [ih]
    show ((t.generations.set i (genKilled (t.generation i)))[j]?).map _ = _
    rw [getElem?_set_formula]
    rcases hv : t.generations[j]? with _ | v
    · simp
    · have hval : ∀ h : j = i, t.generation i = v := by
        rintro rfl
        rw [Allocator.generation, getD_eq_getElem?', hv]
        rfl
      simp only [Option.map_some, Option.map_map, Option.map]
      rcases eq_or_ne j i with rfl | hne
      · rw [hval rfl]
        by_cases hm : j ∈ l <;>
          simp [hm, genKilled_idem, List.mem_cons]
      · by_cases hm : j ∈ l <;>
          simp [hm, hne, List.mem_cons]

theorem raiseFold_length (l : List Nat) (t : Allocator) :
    (l.foldl Allocator.raiseStep t).generations.length =
      t.generations.length := by
  induction l generalizing t with
  | nil => rfl
  | cons i l ih =>
    show (l.foldl Allocator.raiseStep (Allocator.raiseStep t i)).generations.length = _
    rw [ih]
    exact List.length_set ..

theorem killFold_length (l : List Nat) (acc : List Entity) (t : Allocator) :
    (l.foldl Allocator.killStep (acc, t)).2.generations.length =
      t.generations.length := by
  induction l generalizing acc t with
  | nil => rfl
  | cons i l ih =>
    show (l.foldl Allocator.killStep
      (acc ++ [⟨i, t.generation i⟩], _)).2.generations.length = _
    rw [ih]
    exact List.length_set ..

theorem killFold_out (l : List Nat) (acc : List Entity) (t : Allocator)
    (hnd : l.Nodup) :
    (l.foldl Allocator.killStep (acc, t)).1 =
      acc ++ l.map (fun i => (⟨i, t.generation i⟩ : Entity)) := by
  induction l generalizing acc t with
  | nil => simp
  | cons i l ih =>
    show (l.foldl Allocator.killStep
      (acc ++ [⟨i, t.generation i⟩], _)).1 = _
    rw [ih _ _ (List.Nodup.of_cons hnd), List.map_cons, List.append_assoc,
      List.singleton_append]
    congr 1
    congr 1
    apply List.map_congr_left
    intro j hj
    have hne : j ≠ i := by
      rintro rfl
      exact (List.nodup_cons.mp hnd).1 hj
    show (⟨j, Allocator.generation _ j⟩ : Entity) = ⟨j, t.generation j⟩
    congr 1
    show (t.generations.set i (genKilled (t.generation i))).getD j 0 =
      t.generation j
    exact getD_set_ne _ _ _ _ _ (fun h => hne h.symm)

theorem maskIter_toFinset (s : Finset Nat) : (maskIter s).toFinset = s := by
  ext j
  rw [List.mem_toFinset, maskIter_mem]

theorem padTo_getElem?_lt (g : List Int) (n j : Nat)
    (h : j < (Allocator.padTo g n).length) :
    (Allocator.padTo g n)[j]? = some (g.getD j 0) := by
  rw [List.getElem?_eq_getElem h]
  congr 1
  rw [← padTo_getD g n j, List.getD_eq_getElem _ _ h]

/-- Characterization of `merge_atomic` in terms of the pre-merge state:
the emitted list, and every component of the post-merge state. -/
theorem mergeAtomic_spec (s : Allocator)
    (hk : ∀ i ∈ s.killedAtomic,
      i < (Allocator.padTo s.generations s.indexLen).length) :
    (s.mergeAtomic).1 =
      (maskIter s.killedAtomic).map (fun i =>
        (⟨i, if i ∈ s.raisedAtomic then genRaised (s.generation i)
             else s.generation i⟩ : Entity)) ∧
    (s.mergeAtomic).2.raisedAtomic = ∅ ∧
    (s.mergeAtomic).2.killedAtomic = ∅ ∧
    (s.mergeAtomic).2.alive =
      (s.alive ∪ s.raisedAtomic) \ s.killedAtomic ∧
    (s.mergeAtomic).2.indexLen = s.indexLen ∧
    (s.mergeAtomic).2.cache =
      s.cache.take s.cacheLen ++ maskIter s.killedAtomic ∧
    (s.mergeAtomic).2.cacheLen = (s.mergeAtomic).2.cache.length ∧
    (∀ j, (s.mergeAtomic).2.generations[j]? =
      ((Allocator.padTo s.generations s.indexLen)[j]?).map (fun v =>
        if j ∈ s.killedAtomic then
          genKilled (if j ∈ s.raisedAtomic then genRaised v else v)
        else if j ∈ s.raisedAtomic then genRaised v else v)) ∧
    (s.mergeAtomic).2.generations.length =
      (Allocator.padTo s.generations s.indexLen).length := by
  unfold Allocator.mergeAtomic
  dsimp only
  rw [(raiseFold_fields (maskIter s.raisedAtomic) _).2.1]
  dsimp only
  refine ⟨?_, ?_, rfl, ?_, ?_, ?_, rfl, ?_, ?_⟩
  · rw [killFold_out _ _ _ (maskIter_nodup _), List.nil_append]
    apply List.map_congr_left
    intro i hi
    have hi' : i ∈ s.killedAtomic := (maskIter_mem _ _).mp hi
    unfold Allocator.generation
    rw [getD_eq_getElem?', raiseFold_gens,
      padTo_getElem?_lt _ _ _ (hk i hi')]
    simp only [Option.map_some', Option.getD_some]
    by_cases hm : i ∈ s.raisedAtomic
    · rw [if_pos ((maskIter_mem _ _).mpr hm), if_pos hm]
    · rw [if_neg (fun hc => hm ((maskIter_mem _ _).mp hc)), if_neg hm]
  · rw [(killFold_fields _ _ _).1]
  · rw [killFold_alive, raiseFold_alive, maskIter_toFinset,
      maskIter_toFinset]
  · rw [(killFold_fields _ _ _).2.2.2.2, (raiseFold_fields _ _).2.2.2.2]
  · rw [(killFold_fields _ _ _).2.2.1, (killFold_fields _ _ _).2.2.2.1,
      (raiseFold_fields _ _).2.2.1, (raiseFold_fields _ _).2.2.2.1]
    congr 1
    rw [killFold_out _ _ _ (maskIter_nodup _), List.nil_append,
      List.map_map]
    exact List.map_id _
  · intro j
    rw [killFold_gens, raiseFold_gens, Option.map_map]
    rcases hv : (Allocator.padTo s.generations s.indexLen)[j]? with _ | v
    · rfl
    · simp only [Option.map_some']
      congr 1
      simp [maskIter_mem]
  · rw [killFold_length, raiseFold_length]

/-! ## Helper lemmas for the allocation-uniqueness invariant -/

theorem genRaised_of_nonpos {g : Int} (h : g ≤ 0) : genRaised g = 1 - g := by
  unfold genRaised
  rw [if_neg (by omega)]

theorem generation_pos_lt (s : Allocator) (i : Nat)
    (h : 0 < s.generation i) : i < s.generations.length := by
  by_contra hc
  rw [Allocator.generation, List.getD_eq_default _ _ (by omega)] at h
  exact absurd h (by omega)

theorem take_getD {α : Type} (l : List α) (n k : Nat) (d : α) (h : k < n) :
    (l.take n).getD k d = l.getD k d := by
  rw [getD_eq_getElem?', getD_eq_getElem?', List.getElem?_take, if_pos h]

theorem isAlive_imp (s : Allocator) (e : Entity)
    (h : s.isAlive e = true) :
    (0 < s.generation e.index ∧ e.generation = s.generation e.index) ∨
    (¬ 0 < s.generation e.index ∧ e.index ∈ s.raisedAtomic ∧
      e.generation = genRaised (s.generation e.index)) := by
  rw [isAlive_iff] at h
  unfold Allocator.entity at h
  by_cases h0 : 0 < s.generation e.index
  · rw [if_pos h0] at h
    left
    exact ⟨h0, (congrArg Entity.generation (Option.some_injective _ h)).symm⟩
  · rw [if_neg h0] at h
    by_cases hm : e.index ∈ s.raisedAtomic
    · rw [if_pos hm] at h
      right
      exact ⟨h0, hm, (congrArg Entity.generation (Option.some_injective _ h)).symm⟩
    · rw [if_neg hm] at h
      exact absurd h (by simp)

theorem cap_eq_of (s s' : Allocator) (j : Nat)
    (hg : s'.generation j = s.generation j)
    (hr : j ∈ s'.raisedAtomic ↔ j ∈ s.raisedAtomic) :
    cap s' j = cap s j := by
  unfold cap
  rw [hg]
  by_cases hm : j ∈ s.raisedAtomic
  · rw [if_pos hm, if_pos (hr.mpr hm)]
  · rw [if_neg hm, if_neg (fun hc => hm (hr.mp hc))]

theorem cap_raised (s : Allocator) (j : Nat) (h : j ∈ s.raisedAtomic) :
    cap s j = genRaised (s.generation j) := by
  unfold cap
  rw [if_pos h]

theorem cap_not_raised (s : Allocator) (j : Nat) (h : j ∉ s.raisedAtomic) :
    cap s j = if 0 < s.generation j then s.generation j
      else -(s.generation j) := by
  unfold cap
  rw [if_neg h]

theorem mem_of_getLast? {α : Type} {l : List α} {a : α}
    (h : l.getLast? = some a) : a ∈ l :=
  List.dropLast_append_getLast? a h ▸
    List.mem_append_right _ (List.mem_singleton_self a)

theorem getLast?_not_mem_dropLast {α : Type} {l : List α} {a : α}
    (hnd : l.Nodup) (h : l.getLast? = some a) : a ∉ l.dropLast := by
  intro hmem
  have heq := List.dropLast_append_getLast? a h
  rw [← heq] at hnd
  exact (List.nodup_append.mp hnd).2.2 hmem (List.mem_singleton_self a)

theorem generation_eq (s : Allocator) (j : Nat) :
    s.generation j = s.generations.getD j 0 :=
  rfl

theorem allocate_cache_fields (s : Allocator) (i : Nat)
    (h : (s.cache.take s.cacheLen).getLast? = some i) :
    (s.allocate).1 = ⟨i, genRaised (s.generation i)⟩ ∧
    (s.allocate).2.generations =
      s.generations.set i (genRaised (s.generation i)) ∧
    (s.allocate).2.raisedAtomic = s.raisedAtomic ∧
    (s.allocate).2.killedAtomic = s.killedAtomic ∧
    (s.allocate).2.alive = insert i s.alive ∧
    (s.allocate).2.cache = (s.cache.take s.cacheLen).dropLast ∧
    (s.allocate).2.cacheLen = (s.cache.take s.cacheLen).dropLast.length ∧
    (s.allocate).2.indexLen = s.indexLen := by
  rw [allocate_cache_eq s i h]
  exact ⟨rfl, rfl, rfl, rfl, rfl, rfl, rfl, rfl⟩

theorem allocate_fresh_fields (s : Allocator)
    (h : (s.cache.take s.cacheLen).getLast? = none) :
    (s.allocate).1 = ⟨s.indexLen,
      genRaised ((Allocator.padTo s.generations (s.indexLen + 1)).getD
        s.indexLen 0)⟩ ∧
    (s.allocate).2.generations =
      (Allocator.padTo s.generations (s.indexLen + 1)).set s.indexLen
        (genRaised ((Allocator.padTo s.generations (s.indexLen + 1)).getD
          s.indexLen 0)) ∧
    (s.allocate).2.raisedAtomic = s.raisedAtomic ∧
    (s.allocate).2.killedAtomic = s.killedAtomic ∧
    (s.allocate).2.alive = insert s.indexLen s.alive ∧
    (s.allocate).2.cache = s.cache.take s.cacheLen ∧
    (s.allocate).2.cacheLen = 0 ∧
    (s.allocate).2.indexLen = s.indexLen + 1 := by
  rw [allocate_fresh_eq s h]
  exact ⟨rfl, rfl, rfl, rfl, rfl, rfl, rfl, rfl⟩

theorem allocateAtomic_cache_fields (s : Allocator) (h : 0 < s.cacheLen) :
    (s.allocateAtomic).1 = ⟨s.cache.getD (s.cacheLen - 1) 0,
      genRaised (s.generation (s.cache.getD (s.cacheLen - 1) 0))⟩ ∧
    (s.allocateAtomic).2.generations = s.generations ∧
    (s.allocateAtomic).2.raisedAtomic =
      insert (s.cache.getD (s.cacheLen - 1) 0) s.raisedAtomic ∧
    (s.allocateAtomic).2.killedAtomic = s.killedAtomic ∧
    (s.allocateAtomic).2.alive = s.alive ∧
    (s.allocateAtomic).2.cache = s.cache ∧
    (s.allocateAtomic).2.cacheLen = s.cacheLen - 1 ∧
    (s.allocateAtomic).2.indexLen = s.indexLen := by
  rw [allocateAtomic_cache_eq s h]
  exact ⟨rfl, rfl, rfl, rfl, rfl, rfl, rfl, rfl⟩

theorem allocateAtomic_fresh_fields (s : Allocator) (h : ¬ 0 < s.cacheLen) :
    (s.allocateAtomic).1 = ⟨s.indexLen,
      genRaised (s.generation s.indexLen)⟩ ∧
    (s.allocateAtomic).2.generations = s.generations ∧
    (s.allocateAtomic).2.raisedAtomic = insert s.indexLen s.raisedAtomic ∧
    (s.allocateAtomic).2.killedAtomic = s.killedAtomic ∧
    (s.allocateAtomic).2.alive = s.alive ∧
    (s.allocateAtomic).2.cache = s.cache ∧
    (s.allocateAtomic).2.cacheLen = s.cacheLen ∧
    (s.allocateAtomic).2.indexLen = s.indexLen + 1 := by
  rw [allocateAtomic_fresh_eq s h]
  exact ⟨rfl, rfl, rfl, rfl, rfl, rfl, rfl, rfl⟩

theorem kill_not_raised_fields (s : Allocator) (e : Entity)
    (h : s.isAlive e = true) (hr : e.index ∉ s.raisedAtomic) :
    (s.kill e).1 = .ok () ∧
    (s.kill e).2.generations =
      s.generations.set e.index (genKilled (s.generation e.index)) ∧
    (s.kill e).2.raisedAtomic = s.raisedAtomic ∧
    (s.kill e).2.killedAtomic = s.killedAtomic.erase e.index ∧
    (s.kill e).2.alive = s.alive.erase e.index ∧
    (s.kill e).2.cache = s.cache.take s.cacheLen ++ [e.index] ∧
    (s.kill e).2.cacheLen = (s.cache.take s.cacheLen ++ [e.index]).length ∧
    (s.kill e).2.indexLen = s.indexLen := by
  rw [kill_not_raised_eq s e h hr]
  exact ⟨rfl, rfl, rfl, rfl, rfl, rfl, rfl, rfl⟩

theorem kill_raised_fields (s : Allocator) (e : Entity)
    (h : s.isAlive e = true) (hr : e.index ∈ s.raisedAtomic) :
    (s.kill e).1 = .ok () ∧
    (s.kill e).2.generations =
      (Allocator.padTo s.generations s.indexLen).set e.index
        (genKilled (genRaised
          ((Allocator.padTo s.generations s.indexLen).getD e.index 0))) ∧
    (s.kill e).2.raisedAtomic = s.raisedAtomic.erase e.index ∧
    (s.kill e).2.killedAtomic = s.killedAtomic.erase e.index ∧
    (s.kill e).2.alive = s.alive.erase e.index ∧
    (s.kill e).2.cache = s.cache.take s.cacheLen ++ [e.index] ∧
    (s.kill e).2.cacheLen = (s.cache.take s.cacheLen ++ [e.index]).length ∧
    (s.kill e).2.indexLen = s.indexLen := by
  rw [kill_raised_eq s e h hr]
  exact ⟨rfl, rfl, rfl, rfl, rfl, rfl, rfl, rfl⟩

/-- The allocator invariant, cap monotonicity, and the freshness of the
returned entity, for one `allocate()` call. -/
theorem alloc_step (s : Allocator) (h : Inv s) :
    Inv (s.allocate).2 ∧ (∀ j, cap s j ≤ cap (s.allocate).2 j) ∧
    (1 ≤ (s.allocate).1.generation ∧
     (s.allocate).1.generation = cap (s.allocate).2 (s.allocate).1.index ∧
     cap s (s.allocate).1.index < cap (s.allocate).2 (s.allocate).1.index) := by
  obtain ⟨h1, h2, h3, h4, h5, h6, h7⟩ := h
  rcases hcl : (s.cache.take s.cacheLen).getLast? with _ | i
  · -- fresh-index branch
    obtain ⟨f0, fg, fr, fk, fa, fc, fl, fi⟩ := allocate_fresh_fields s hcl
    have hgi : s.generation s.indexLen = 0 := by
      rw [generation_eq, List.getD_eq_default _ _ (by omega)]
    have hpad : (Allocator.padTo s.generations (s.indexLen + 1)).getD
        s.indexLen 0 = 0 := by
      rw [padTo_getD]
      exact hgi
    have hraised : s.indexLen ∉ s.raisedAtomic := fun hm => by
      have := h2 _ hm
      omega
    have hgen : ∀ j, (s.allocate).2.generation j =
        if j = s.indexLen then 1 else s.generation j := by
      intro j
      rw [generation_eq, fg]
      rcases eq_or_ne j s.indexLen with rfl | hj
      · rw [if_pos rfl, getD_set_lt _ _ _ _ (by rw [padTo_length]; omega),
          hpad]
        decide
      · rw [if_neg hj, getD_set_ne _ _ _ _ _ (fun hc => hj hc.symm),
          padTo_getD]
        rfl
    have hcap : ∀ j, j ≠ s.indexLen → cap (s.allocate).2 j = cap s j := by
      intro j hj
      apply cap_eq_of
      · rw [hgen j, if_neg hj]
      · rw [fr]
    have hcapL : cap (s.allocate).2 s.indexLen = 1 := by
      rw [cap_not_raised _ _ (by rw [fr]; exact hraised), hgen,
        if_pos rfl]
      norm_num
    have hcapsL : cap s s.indexLen = 0 := by
      rw [cap_not_raised _ _ hraised, hgi]
      norm_num
    refine ⟨⟨?_, ?_, ?_, ?_, ?_, ?_, ?_⟩, ?_, ?_, ?_, ?_⟩
    · rw [fg, fi, List.length_set, padTo_length]
      omega
    · intro j hj
      rw [fr] at hj
      rw [fi]
      have := h2 j hj
      omega
    · intro j hj
      rw [fr] at hj
      rw [hgen, if_neg (by have := h2 j hj; omega)]
      exact h3 j hj
    · rw [fc, fl]
      omega
    · rw [fc, fl, List.take_zero]
      exact List.nodup_nil
    · intro j hj
      rw [fc, fl, List.take_zero] at hj
      exact absurd hj (List.not_mem_nil j)
    · intro j hj
      rw [fk] at hj
      rcases h7 j hj with hpos | hm
      · left
        rw [hgen, if_neg (by have := generation_pos_lt s j hpos; omega)]
        exact hpos
      · right
        rw [fr]
        exact hm
    · intro j
      rcases eq_or_ne j s.indexLen with rfl | hj
      · rw [hcapL, hcapsL]
        norm_num
      · rw [hcap j hj]
    · rw [f0]
      show 1 ≤ genRaised _
      exact genRaised_pos _
    · rw [f0]
      show genRaised _ = cap (s.allocate).2 s.indexLen
      rw [hcapL, hpad]
      decide
    · rw [f0]
      show cap s s.indexLen < cap (s.allocate).2 s.indexLen
      rw [hcapL, hcapsL]
      norm_num
  · -- cache-reuse branch
    obtain ⟨f0, fg, fr, fk, fa, fc, fl, fi⟩ := allocate_cache_fields s i hcl
    have hmem : i ∈ s.cache.take s.cacheLen := mem_of_getLast? hcl
    obtain ⟨hgle, hnr, hlt⟩ := h6 i hmem
    have hnotdrop : i ∉ (s.cache.take s.cacheLen).dropLast :=
      getLast?_not_mem_dropLast h5 hcl
    have hgen : ∀ j, (s.allocate).2.generation j =
        if j = i then 1 - s.generation i else s.generation j := by
      intro j
      rw [generation_eq, fg]
      rcases eq_or_ne j i with rfl | hj
      · rw [if_pos rfl, getD_set_lt _ _ _ _ hlt, genRaised_of_nonpos hgle]
      · rw [if_neg hj, getD_set_ne _ _ _ _ _ (fun hc => hj hc.symm)]
        rfl
    have hcap : ∀ j, j ≠ i → cap (s.allocate).2 j = cap s j := by
      intro j hj
      apply cap_eq_of
      · rw [hgen j, if_neg hj]
      · rw [fr]
    have hcapL : cap (s.allocate).2 i = 1 - s.generation i := by
      rw [cap_not_raised _ _ (by rw [fr]; exact hnr), hgen, if_pos rfl,
        if_pos (by omega)]
    have hcapsL : cap s i = -(s.generation i) := by
      rw [cap_not_raised _ _ hnr, if_neg (by omega)]
    refine ⟨⟨?_, ?_, ?_, ?_, ?_, ?_, ?_⟩, ?_, ?_, ?_, ?_⟩
    · rw [fg, fi, List.length_set]
      exact h1
    · intro j hj
      rw [fr] at hj
      rw [fi]
      exact h2 j hj
    · intro j hj
      rw [fr] at hj
      rw [hgen, if_neg (fun hc : j = i => hnr (hc ▸ hj))]
      exact h3 j hj
    · rw [fc, fl]
    · rw [fc, fl, List.take_length]
      exact h5.sublist (List.dropLast_sublist _)
    · intro j hj
      rw [fc, fl, List.take_length] at hj
      have hj' : j ∈ s.cache.take s.cacheLen :=
        (List.dropLast_sublist _).mem hj
      obtain ⟨hg1, hg2, hg3⟩ := h6 j hj'
      have hne : j ≠ i := fun hc : j = i => hnotdrop (hc ▸ hj)
      refine ⟨?_, ?_, ?_⟩
      · rw [hgen, if_neg hne]
        exact hg1
      · rw [fr]
        exact hg2
      · rw [fg, List.length_set]
        exact hg3
    · intro j hj
      rw [fk] at hj
      rcases h7 j hj with hpos | hm
      · left
        rw [hgen, if_neg (fun hc => by rw [hc] at hpos; omega)]
        exact hpos
      · right
        rw [fr]
        exact hm
    · intro j
      rcases eq_or_ne j i with rfl | hj
      · rw [hcapL, hcapsL]
        omega
      · rw [hcap j hj]
    · rw [f0]
      show 1 ≤ genRaised _
      exact genRaised_pos _
    · rw [f0]
      show genRaised _ = cap (s.allocate).2 i
      rw [hcapL, genRaised_of_nonpos hgle]
    · rw [f0]
      show cap s i < cap (s.allocate).2 i
      rw [hcapL, hcapsL]
      omega

/-- The allocator invariant, cap monotonicity, and the freshness of the
returned entity, for one `allocate_atomic()` call. -/
theorem allocAtomic_step (s : Allocator) (h : Inv s) :
    Inv (s.allocateAtomic).2 ∧
    (∀ j, cap s j ≤ cap (s.allocateAtomic).2 j) ∧
    (1 ≤ (s.allocateAtomic).1.generation ∧
     (s.allocateAtomic).1.generation =
       cap (s.allocateAtomic).2 (s.allocateAtomic).1.index ∧
     cap s (s.allocateAtomic).1.index <
       cap (s.allocateAtomic).2 (s.allocateAtomic).1.index) := by
  obtain ⟨h1, h2, h3, h4, h5, h6, h7⟩ := h
  by_cases hcl : 0 < s.cacheLen
  · -- cache-reuse branch
    obtain ⟨f0, fg, fr, fk, fa, fc, fl, fi⟩ :=
      allocateAtomic_cache_fields s hcl
    have hmem : s.cache.getD (s.cacheLen - 1) 0 ∈
        s.cache.take s.cacheLen := by
      rw [← take_getD s.cache s.cacheLen (s.cacheLen - 1) 0 (by omega)]
      apply getD_mem
      rw [List.length_take]
      omega
    obtain ⟨hgle, hnr, hlt⟩ := h6 _ hmem
    have hlast : (s.cache.take s.cacheLen).getLast? =
        some (s.cache.getD (s.cacheLen - 1) 0) :=
      take_getLast? s.cache s.cacheLen 0 hcl h4
    have hnotdrop : s.cache.getD (s.cacheLen - 1) 0 ∉
        (s.cache.take s.cacheLen).dropLast :=
      getLast?_not_mem_dropLast h5 hlast
    have hgen : ∀ j, (s.allocateAtomic).2.generation j = s.generation j := by
      intro j
      rw [generation_eq, fg]
      rfl
    have hcap : ∀ j, j ≠ s.cache.getD (s.cacheLen - 1) 0 →
        cap (s.allocateAtomic).2 j = cap s j := by
      intro j hj
      apply cap_eq_of
      · exact hgen j
      · rw [fr]
        exact Finset.mem_insert.trans (or_iff_right hj)
    have hcapL : cap (s.allocateAtomic).2 (s.cache.getD (s.cacheLen - 1) 0) =
        1 - s.generation (s.cache.getD (s.cacheLen - 1) 0) := by
      rw [cap_raised _ _ (by rw [fr]; exact Finset.mem_insert_self _ _),
        hgen, genRaised_of_nonpos hgle]
    have hcapsL : cap s (s.cache.getD (s.cacheLen - 1) 0) =
        -(s.generation (s.cache.getD (s.cacheLen - 1) 0)) := by
      rw [cap_not_raised _ _ hnr, if_neg (by omega)]
    have htake : s.cache.take (s.cacheLen - 1) =
        (s.cache.take s.cacheLen).take (s.cacheLen - 1) := by
      rw [List.take_take]
      congr 1
      omega
    have hdrop : (s.cache.take s.cacheLen).take (s.cacheLen - 1) =
        (s.cache.take s.cacheLen).dropLast := by
      rw [List.dropLast_eq_take, List.length_take]
      congr 1
      omega
    refine ⟨⟨?_, ?_, ?_, ?_, ?_, ?_, ?_⟩, ?_, ?_, ?_, ?_⟩
    · rw [fg, fi]
      exact h1
    · intro j hj
      rw [fr] at hj
      rw [fi]
      rcases Finset.mem_insert.mp hj with rfl | hj'
      · omega
      · exact h2 j hj'
    · intro j hj
      rw [fr] at hj
      rw [hgen]
      rcases Finset.mem_insert.mp hj with rfl | hj'
      · exact hgle
      · exact h3 j hj'
    · rw [fc, fl]
      omega
    · rw [fc, fl, htake, hdrop]
      exact h5.sublist (List.dropLast_sublist _)
    · intro j hj
      rw [fc, fl, htake, hdrop] at hj
      have hj' : j ∈ s.cache.take s.cacheLen :=
        (List.dropLast_sublist _).mem hj
      obtain ⟨hg1, hg2, hg3⟩ := h6 j hj'
      have hne : j ≠ s.cache.getD (s.cacheLen - 1) 0 :=
        fun hc : _ = _ => hnotdrop (hc ▸ hj)
      refine ⟨?_, ?_, ?_⟩
      · rw [hgen]
        exact hg1
      · rw [fr]
        intro hc
        rcases Finset.mem_insert.mp hc with hc' | hc'
        · exact hne hc'
        · exact hg2 hc'
      · rw [fg]
        exact hg3
    · intro j hj
      rw [fk] at hj
      rcases h7 j hj with hpos | hm
      · left
        rw [hgen]
        exact hpos
      · right
        rw [fr]
        exact Finset.mem_insert_of_mem hm
    · intro j
      rcases eq_or_ne j (s.cache.getD (s.cacheLen - 1) 0) with rfl | hj
      · rw [hcapL, hcapsL]
        omega
      · rw [hcap j hj]
    · rw [f0]
      show 1 ≤ genRaised _
      exact genRaised_pos _
    · rw [f0]
      show genRaised _ = cap (s.allocateAtomic).2 _
      rw [hcapL, genRaised_of_nonpos hgle]
    · rw [f0]
      show cap s _ < cap (s.allocateAtomic).2 _
      rw [hcapL, hcapsL]
      omega
  · -- fresh-index branch
    obtain ⟨f0, fg, fr, fk, fa, fc, fl, fi⟩ :=
      allocateAtomic_fresh_fields s hcl
    have hgi : s.generation s.indexLen = 0 := by
      rw [generation_eq, List.getD_eq_default _ _ (by omega)]
    have hraised : s.indexLen ∉ s.raisedAtomic := fun hm => by
      have := h2 _ hm
      omega
    have hgen : ∀ j, (s.allocateAtomic).2.generation j = s.generation j := by
      intro j
      rw [generation_eq, fg]
      rfl
    have hcap : ∀ j, j ≠ s.indexLen →
        cap (s.allocateAtomic).2 j = cap s j := by
      intro j hj
      apply cap_eq_of
      · exact hgen j
      · rw [fr]
        exact Finset.mem_insert.trans (or_iff_right hj)
    have hcapL : cap (s.allocateAtomic).2 s.indexLen = 1 := by
      rw [cap_raised _ _ (by rw [fr]; exact Finset.mem_insert_self _ _),
        hgen, hgi]
      decide
    have hcapsL : cap s s.indexLen = 0 := by
      rw [cap_not_raised _ _ hraised, hgi]
      norm_num
    refine ⟨⟨?_, ?_, ?_, ?_, ?_, ?_, ?_⟩, ?_, ?_, ?_, ?_⟩
    · rw [fg, fi]
      omega
    · intro j hj
      rw [fr] at hj
      rw [fi]
      rcases Finset.mem_insert.mp hj with rfl | hj'
      · omega
      · have := h2 j hj'
        omega
    · intro j hj
      rw [fr] at hj
      rw [hgen]
      rcases Finset.mem_insert.mp hj with rfl | hj'
      · omega
      · exact h3 j hj'
    · rw [fc, fl]
      exact h4
    · rw [fc, fl]
      exact h5
    · intro j hj
      rw [fc, fl] at hj
      obtain ⟨hg1, hg2, hg3⟩ := h6 j hj
      refine ⟨?_, ?_, ?_⟩
      · rw [hgen]
        exact hg1
      · rw [fr]
        intro hc
        rcases Finset.mem_insert.mp hc with hc' | hc'
        · omega
        · exact hg2 hc'
      · rw [fg]
        exact hg3
    · intro j hj
      rw [fk] at hj
      rcases h7 j hj with hpos | hm
      · left
        rw [hgen]
        exact hpos
      · right
        rw [fr]
        exact Finset.mem_insert_of_mem hm
    · intro j
      rcases eq_or_ne j s.indexLen with rfl | hj
      · rw [hcapL, hcapsL]
        norm_num
      · rw [hcap j hj]
    · rw [f0]
      show 1 ≤ genRaised _
      exact genRaised_pos _
    · rw [f0]
      show genRaised _ = cap (s.allocateAtomic).2 s.indexLen
      rw [hcapL, hgi]
      decide
    · rw [f0]
      show cap s s.indexLen < cap (s.allocateAtomic).2 s.indexLen
      rw [hcapL, hcapsL]
      norm_num

/-- The allocator invariant and cap monotonicity for one `kill_atomic`
call. -/
theorem killAtomic_step (s : Allocator) (e : Entity) (h : Inv s) :
    Inv ((s.killAtomic e).2) ∧
    (∀ j, cap s j ≤ cap (s.killAtomic e).2 j) := by
  by_cases ha : s.isAlive e = true
  · obtain ⟨h1, h2, h3, h4, h5, h6, h7⟩ := h
    rw [killAtomic_ok s e ha]
    refine ⟨⟨h1, h2, h3, h4, h5, h6, ?_⟩, fun j => le_of_eq (cap_eq_of _ _ _ rfl Iff.rfl).symm⟩
    intro j hj
    rcases Finset.mem_insert.mp hj with rfl | hj'
    · rcases isAlive_imp s e ha with ⟨hp, _⟩ | ⟨_, hm, _⟩
      · exact Or.inl hp
      · exact Or.inr hm
    · exact h7 j hj'
  · have ha' : s.isAlive e = false := by
      cases hb : s.isAlive e
      · rfl
      · exact absurd hb ha
    have : s.killAtomic e = (.error .wrongGeneration, s) := by
      unfold Allocator.killAtomic
      simp [ha']
    rw [this]
    exact ⟨h, fun j => le_refl _⟩

/-- The allocator invariant and cap monotonicity for one `kill` call. -/
theorem kill_step (s : Allocator) (e : Entity) (h : Inv s) :
    Inv ((s.kill e).2) ∧ (∀ j, cap s j ≤ cap (s.kill e).2 j) := by
  by_cases ha : s.isAlive e = true
  swap
  · have ha' : s.isAlive e = false := by
      cases hb : s.isAlive e
      · rfl
      · exact absurd hb ha
    have heq : s.kill e = (.error .wrongGeneration, s) := by
      unfold Allocator.kill
      simp [ha']
    rw [heq]
    exact ⟨h, fun j => le_refl _⟩
  obtain ⟨h1, h2, h3, h4, h5, h6, h7⟩ := h
  by_cases hr : e.index ∈ s.raisedAtomic
  · -- atomically-raised branch: raise then kill
    obtain ⟨f0, fg, fr, fk, fa, fc, fl, fi⟩ := kill_raised_fields s e ha hr
    have hgle : s.generation e.index ≤ 0 := h3 _ hr
    have hilt : e.index < s.indexLen := h2 _ hr
    have hplen : (Allocator.padTo s.generations s.indexLen).length =
        s.indexLen := by
      rw [padTo_length]
      omega
    have hgen : ∀ j, (s.kill e).2.generation j =
        if j = e.index then s.generation e.index - 1
        else s.generation j := by
      intro j
      rw [generation_eq, fg]
      rcases eq_or_ne j e.index with rfl | hj
      · rw [if_pos rfl, getD_set_lt _ _ _ _ (by omega), padTo_getD]
        show genKilled (genRaised (s.generation e.index)) = _
        rw [genRaised_of_nonpos hgle,
          genKilled_of_pos
            (by omega : (0:Int) < 1 - s.generation e.index)]
        omega
      · rw [if_neg hj, getD_set_ne _ _ _ _ _ (fun hc => hj hc.symm),
          padTo_getD]
        rfl
    have hactive : e.index ∉ s.cache.take s.cacheLen := fun hm =>
      (h6 _ hm).2.1 hr
    refine ⟨⟨?_, ?_, ?_, ?_, ?_, ?_, ?_⟩, ?_⟩
    · rw [fg, fi, List.length_set, hplen]
    · intro j hj
      rw [fr] at hj
      rw [fi]
      exact h2 j (Finset.mem_of_mem_erase hj)
    · intro j hj
      rw [fr] at hj
      rw [hgen, if_neg (Finset.ne_of_mem_erase hj)]
      exact h3 j (Finset.mem_of_mem_erase hj)
    · rw [fc, fl]
    · rw [fc, fl, List.take_length]
      rw [List.nodup_append]
      exact ⟨h5, List.nodup_singleton _,
        fun a hma hmb => hactive ((List.mem_singleton.mp hmb) ▸ hma)⟩
    · intro j hj
      rw [fc, fl, List.take_length] at hj
      rcases List.mem_append.mp hj with hj' | hj'
      · obtain ⟨hg1, hg2, hg3⟩ := h6 j hj'
        have hne : j ≠ e.index := fun hc : _ = _ => hactive (hc ▸ hj')
        refine ⟨?_, ?_, ?_⟩
        · rw [hgen, if_neg hne]
          exact hg1
        · rw [fr]
          exact fun hc => hg2 (Finset.mem_of_mem_erase hc)
        · rw [fg, List.length_set, hplen]
          omega
      · rw [List.mem_singleton.mp hj']
        refine ⟨?_, ?_, ?_⟩
        · rw [hgen, if_pos rfl]
          omega
        · rw [fr]
          exact Finset.not_mem_erase _ _
        · rw [fg, List.length_set, hplen]
          omega
    · intro j hj
      rw [fk] at hj
      have hne : j ≠ e.index := Finset.ne_of_mem_erase hj
      rcases h7 j (Finset.mem_of_mem_erase hj) with hpos | hm
      · left
        rw [hgen, if_neg hne]
        exact hpos
      · right
        rw [fr]
        exact Finset.mem_erase_of_ne_of_mem hne hm
    · intro j
      rcases eq_or_ne j e.index with rfl | hj
      · have hc1 : cap s e.index = 1 - s.generation e.index := by
          rw [cap_raised _ _ hr, genRaised_of_nonpos hgle]
        have hc2 : cap (s.kill e).2 e.index =
            1 - s.generation e.index := by
          rw [cap_not_raised _ _ (by rw [fr]; exact Finset.not_mem_erase _ _),
            hgen, if_pos rfl, if_neg (by omega)]
          omega
        rw [hc1, hc2]
      · have : cap (s.kill e).2 j = cap s j := by
          apply cap_eq_of
          · rw [hgen, if_neg hj]
          · rw [fr]
            exact ⟨fun hc => Finset.mem_of_mem_erase hc,
              fun hc => Finset.mem_erase_of_ne_of_mem hj hc⟩
        rw [this]
  · -- not atomically raised: plain kill of a stored live generation
    obtain ⟨f0, fg, fr, fk, fa, fc, fl, fi⟩ :=
      kill_not_raised_fields s e ha hr
    have hpos : 0 < s.generation e.index := by
      rcases isAlive_imp s e ha with ⟨hp, _⟩ | ⟨_, hm, _⟩
      · exact hp
      · exact absurd hm hr
    have hilt : e.index < s.generations.length := generation_pos_lt s _ hpos
    have hgen : ∀ j, (s.kill e).2.generation j =
        if j = e.index then -(s.generation e.index)
        else s.generation j := by
      intro j
      rw [generation_eq, fg]
      rcases eq_or_ne j e.index with rfl | hj
      · rw [if_pos rfl, getD_set_lt _ _ _ _ hilt, genKilled_of_pos hpos]
      · rw [if_neg hj, getD_set_ne _ _ _ _ _ (fun hc => hj hc.symm)]
        rfl
    have hactive : e.index ∉ s.cache.take s.cacheLen := fun hm => by
      have := (h6 _ hm).1
      omega
    refine ⟨⟨?_, ?_, ?_, ?_, ?_, ?_, ?_⟩, ?_⟩
    · rw [fg, fi, List.length_set]
      exact h1
    · intro j hj
      rw [fr] at hj
      rw [fi]
      exact h2 j hj
    · intro j hj
      rw [fr] at hj
      rw [hgen, if_neg (fun hc : j = e.index => hr (hc ▸ hj))]
      exact h3 j hj
    · rw [fc, fl]
    · rw [fc, fl, List.take_length]
      rw [List.nodup_append]
      exact ⟨h5, List.nodup_singleton _,
        fun a hma hmb => hactive ((List.mem_singleton.mp hmb) ▸ hma)⟩
    · intro j hj
      rw [fc, fl, List.take_length] at hj
      rcases List.mem_append.mp hj with hj' | hj'
      · obtain ⟨hg1, hg2, hg3⟩ := h6 j hj'
        have hne : j ≠ e.index := fun hc : _ = _ => hactive (hc ▸ hj')
        refine ⟨?_, ?_, ?_⟩
        · rw [hgen, if_neg hne]
          exact hg1
        · rw [fr]
          exact hg2
        · rw [fg, List.length_set]
          exact hg3
      · rw [List.mem_singleton.mp hj']
        refine ⟨?_, ?_, ?_⟩
        · rw [hgen, if_pos rfl]
          omega
        · rw [fr]
          exact hr
        · rw [fg, List.length_set]
          exact hilt
    · intro j hj
      rw [fk] at hj
      have hne : j ≠ e.index := Finset.ne_of_mem_erase hj
      rcases h7 j (Finset.mem_of_mem_erase hj) with hpos' | hm
      · left
        rw [hgen, if_neg hne]
        exact hpos'
      · right
        rw [fr]
        exact hm
    · intro j
      rcases eq_or_ne j e.index with rfl | hj
      · have hc1 : cap s e.index = s.generation e.index := by
          rw [cap_not_raised _ _ hr, if_pos hpos]
        have hc2 : cap (s.kill e).2 e.index = s.generation e.index := by
          rw [cap_not_raised _ _ (by rw [fr]; exact hr), hgen, if_pos rfl,
            if_neg (by omega)]
          omega
        rw [hc1, hc2]
      · have : cap (s.kill e).2 j = cap s j := by
          apply cap_eq_of
          · rw [hgen, if_neg hj]
          · rw [fr]
        rw [this]

/-- The allocator invariant and cap monotonicity across `merge_atomic`. -/
theorem merge_step (s : Allocator) (h : Inv s) :
    Inv ((s.mergeAtomic).2) ∧ (∀ j, cap s j ≤ cap (s.mergeAtomic).2 j) := by
  obtain ⟨h1, h2, h3, h4, h5, h6, h7⟩ := h
  have hplen : (Allocator.padTo s.generations s.indexLen).length =
      s.indexLen := by
    rw [padTo_length]
    omega
  have hk : ∀ i ∈ s.killedAtomic,
      i < (Allocator.padTo s.generations s.indexLen).length := by
    intro i hi
    rw [hplen]
    rcases h7 i hi with hp | hrr
    · have := generation_pos_lt s i hp
      omega
    · exact h2 i hrr
  obtain ⟨o1, o2, o3, o4, o5, o6, o7, o8, o9⟩ := mergeAtomic_spec s hk
  have hgen : ∀ j, j < s.indexLen → (s.mergeAtomic).2.generation j =
      (if j ∈ s.killedAtomic then
        genKilled (if j ∈ s.raisedAtomic then genRaised (s.generation j)
          else s.generation j)
       else if j ∈ s.raisedAtomic then genRaised (s.generation j)
         else s.generation j) := by
    intro j hj
    rw [generation_eq, getD_eq_getElem?', o8 j,
      padTo_getElem?_lt _ _ _ (by omega)]
    rw [Option.map_some', Option.getD_some]
    rfl
  have hgen2 : ∀ j, s.indexLen ≤ j →
      (s.mergeAtomic).2.generation j = 0 ∧ s.generation j = 0 := by
    intro j hj
    constructor
    · rw [generation_eq, List.getD_eq_default]
      rw [o9, hplen]
      omega
    · rw [generation_eq, List.getD_eq_default]
      omega
  have hdisj : ∀ j ∈ s.cache.take s.cacheLen, j ∉ s.killedAtomic := by
    intro j hj hk'
    obtain ⟨hg1, hg2, _⟩ := h6 j hj
    rcases h7 j hk' with hp | hrr
    · omega
    · exact hg2 hrr
  refine ⟨⟨?_, ?_, ?_, ?_, ?_, ?_, ?_⟩, ?_⟩
  · rw [o9, hplen, o5]
  · intro j hj
    rw [o2] at hj
    exact absurd hj (Finset.not_mem_empty j)
  · intro j hj
    rw [o2] at hj
    exact absurd hj (Finset.not_mem_empty j)
  · rw [o7]
  · rw [o7, List.take_length, o6]
    rw [List.nodup_append]
    refine ⟨h5, maskIter_nodup _, ?_⟩
    intro a hma hmb
    exact hdisj a hma ((maskIter_mem _ _).mp hmb)
  · intro j hj
    rw [o7, List.take_length, o6] at hj
    rcases List.mem_append.mp hj with hj' | hj'
    · obtain ⟨hg1, hg2, hg3⟩ := h6 j hj'
      refine ⟨?_, ?_, ?_⟩
      · rw [hgen j (by omega), if_neg (hdisj j hj'), if_neg hg2]
        exact hg1
      · rw [o2]
        exact Finset.not_mem_empty j
      · rw [o9, hplen]
        omega
    · have hjk : j ∈ s.killedAtomic := (maskIter_mem _ _).mp hj'
      have hjlt : j < s.indexLen := by
        have := hk j hjk
        omega
      refine ⟨?_, ?_, ?_⟩
      · rw [hgen j hjlt, if_pos hjk]
        exact genKilled_nonpos _
      · rw [o2]
        exact Finset.not_mem_empty j
      · rw [o9, hplen]
        exact hjlt
  · intro j hj
    rw [o3] at hj
    exact absurd hj (Finset.not_mem_empty j)
  · intro j
    have hnr' : j ∉ (s.mergeAtomic).2.raisedAtomic := by
      rw [o2]
      exact Finset.not_mem_empty j
    rcases Nat.lt_or_ge j s.indexLen with hjlt | hjge
    swap
    · obtain ⟨hm0, hs0⟩ := hgen2 j hjge
      have hnr : j ∉ s.raisedAtomic := fun hm => by
        have := h2 j hm
        omega
      rw [cap_not_raised _ _ hnr, cap_not_raised _ _ hnr', hm0, hs0]
    · by_cases hjr : j ∈ s.raisedAtomic <;>
        by_cases hjk : j ∈ s.killedAtomic
      · have hv : (s.mergeAtomic).2.generation j =
            -(genRaised (s.generation j)) := by
          rw [hgen j hjlt, if_pos hjk, if_pos hjr,
            genKilled_of_pos (by have := genRaised_pos (s.generation j); omega)]
        rw [cap_raised _ _ hjr, cap_not_raised _ _ hnr', hv,
          if_neg (by have := genRaised_pos (s.generation j); omega)]
        omega
      · have hv : (s.mergeAtomic).2.generation j =
            genRaised (s.generation j) := by
          rw [hgen j hjlt, if_neg hjk, if_pos hjr]
        rw [cap_raised _ _ hjr, cap_not_raised _ _ hnr', hv,
          if_pos (by have := genRaised_pos (s.generation j); omega)]
      · have hp : 0 < s.generation j := by
          rcases h7 j hjk with hp | hrr
          · exact hp
          · exact absurd hrr hjr
        have hv : (s.mergeAtomic).2.generation j = -(s.generation j) := by
          rw [hgen j hjlt, if_pos hjk, if_neg hjr, genKilled_of_pos hp]
        rw [cap_not_raised _ _ hjr, cap_not_raised _ _ hnr', hv,
          if_pos hp, if_neg (by omega)]
        omega
      · have hv : (s.mergeAtomic).2.generation j = s.generation j := by
          rw [hgen j hjlt, if_neg hjk, if_neg hjr]
        rw [cap_not_raised _ _ hjr, cap_not_raised _ _ hnr', hv]

/-- One top-level operation preserves the invariant, never lowers any cap,
and any entity it returns is fresh: its generation exceeds the old cap of
its index and equals the new one. -/
theorem stepOp_spec (s : Allocator) (op : Op) (h : Inv s) :
    Inv (stepOp s op).1 ∧ (∀ j, cap s j ≤ cap (stepOp s op).1 j) ∧
    (∀ e : Entity, (stepOp s op).2 = some e →
      1 ≤ e.generation ∧ e.generation = cap (stepOp s op).1 e.index ∧
      cap s e.index < cap (stepOp s op).1 e.index) := by
  cases op with
  | alloc =>
    obtain ⟨hi, hm, hg1, hg2, hg3⟩ := alloc_step s h
    refine ⟨hi, hm, ?_⟩
    intro e he
    have he' : (s.allocate).1 = e := Option.some_injective _ he
    subst he'
    exact ⟨hg1, hg2, hg3⟩
  | allocAtomic =>
    obtain ⟨hi, hm, hg1, hg2, hg3⟩ := allocAtomic_step s h
    refine ⟨hi, hm, ?_⟩
    intro e he
    have he' : (s.allocateAtomic).1 = e := Option.some_injective _ he
    subst he'
    exact ⟨hg1, hg2, hg3⟩
  | kill e' =>
    obtain ⟨hi, hm⟩ := kill_step s e' h
    exact ⟨hi, hm, fun e he => Option.noConfusion he⟩
  | killAtomic e' =>
    obtain ⟨hi, hm⟩ := killAtomic_step s e' h
    exact ⟨hi, hm, fun e he => Option.noConfusion he⟩
  | merge =>
    obtain ⟨hi, hm⟩ := merge_step s h
    exact ⟨hi, hm, fun e he => Option.noConfusion he⟩

/-- Main induction for claim C4: running any operation sequence preserves
the invariant, keeps the list of all returned entities duplicate-free, and
bounds every returned generation by the final caps. -/
theorem runOps_spec (ops : List Op) (s : Allocator) (tr : List Entity)
    (hInv : Inv s) (hnd : tr.Nodup)
    (htb : ∀ e ∈ tr, 1 ≤ e.generation ∧ e.generation ≤ cap s e.index) :
    Inv (runOps s ops).1 ∧ (tr ++ (runOps s ops).2).Nodup ∧
    (∀ e ∈ tr ++ (runOps s ops).2,
      1 ≤ e.generation ∧ e.generation ≤ cap (runOps s ops).1 e.index) := by
  induction ops generalizing s tr with
  | nil =>
    have hr : runOps s [] = (s, []) := rfl
    rw [hr]
    refine ⟨hInv, ?_, ?_⟩
    · rw [List.append_nil]
      exact hnd
    · intro e he
      rw [List.append_nil] at he
      exact htb e he
  | cons op ops ih =>
    obtain ⟨hInv', hmono, hfresh⟩ := stepOp_spec s op hInv
    have hrun : runOps s (op :: ops) =
        ((runOps (stepOp s op).1 ops).1,
         (stepOp s op).2.toList ++ (runOps (stepOp s op).1 ops).2) := rfl
    rcases hp : (stepOp s op).2 with _ | e
    · have hres := ih (stepOp s op).1 tr hInv' hnd
        (fun e he => ⟨(htb e he).1,
          le_trans (htb e he).2 (hmono e.index)⟩)
      rw [hrun, hp]
      exact hres
    · obtain ⟨he1, he2, he3⟩ := hfresh e hp
      have hnotin : e ∉ tr := by
        intro hmem
        have hb := (htb e hmem).2
        rw [he2] at hb
        omega
    -- continue with the extended trace
      have hnd' : (tr ++ [e]).Nodup := by
        rw [List.nodup_append]
        exact ⟨hnd, List.nodup_singleton _,
          fun a hma hmb => by
            rw [List.mem_singleton.mp hmb] at hma
            exact hnotin hma⟩
      have htb' : ∀ x ∈ tr ++ [e],
          1 ≤ x.generation ∧ x.generation ≤ cap (stepOp s op).1 x.index := by
        intro x hx
        rcases List.mem_append.mp hx with hx' | hx'
        · exact ⟨(htb x hx').1, le_trans (htb x hx').2 (hmono x.index)⟩
        · rw [List.mem_singleton.mp hx']
          exact ⟨he1, le_of_eq he2⟩
      have hres := ih (stepOp s op).1 (tr ++ [e]) hInv' hnd' htb'
      rw [hrun, hp]
      refine ⟨hres.1, ?_, ?_⟩
      · have : tr ++ (some e).toList ++ (runOps (stepOp s op).1 ops).2 =
            (tr ++ [e]) ++ (runOps (stepOp s op).1 ops).2 := by
          simp
        rw [← List.append_assoc]
        exact hres.2.1
      · intro x hx
        apply hres.2.2
        rw [← List.append_assoc] at hx
        exact hx

/-- C4: over any sequence of allocator operations starting from a fresh
allocator, no two allocation calls (exclusive or atomic, including index
reuse after kills and merges) ever return equal entities. -/
theorem allocated_entities_distinct (ops : List Op) :
    ((runOps Allocator.init ops).2).Nodup := by
  have hInv : Inv Allocator.init :=
    ⟨by simp [Allocator.init], by simp [Allocator.init],
     by simp [Allocator.init], by simp [Allocator.init],
     by simp [Allocator.init], by simp [Allocator.init],
     by simp [Allocator.init]⟩
  have h := runOps_spec ops Allocator.init [] hInv (by simp) (by simp)
  have h2 := h.2.1
  rw [List.nil_append] at h2
  exact h2

/-- C6: `kill_atomic` on a live entity succeeds and only sets the
pending-kill bit: `entity`, `live_bitset` and the stored generations are
unchanged, the entity stays alive under any further sequence of atomic
operations (i.e. until `merge_atomic`), and a repeated `kill_atomic`
returns Ok with the identical state; on a non-live entity it reports
`WrongGeneration`. -/
theorem killAtomic_pending_spec (s : Allocator) (e : Entity) :
    (s.isAlive e = true →
      (s.killAtomic e).1 = .ok () ∧
      (s.killAtomic e).2 =
        { s with killedAtomic := Insert.insert e.index s.killedAtomic } ∧
      (∀ i, (s.killAtomic e).2.entity i = s.entity i) ∧
      (s.killAtomic e).2.liveBitset = s.liveBitset ∧
      (s.killAtomic e).2.generations = s.generations ∧
      (∀ ops : List AOp,
        (runAtomicState (s.killAtomic e).2 ops).isAlive e = true) ∧
      (s.killAtomic e).2.killAtomic e = (.ok (), (s.killAtomic e).2)) ∧
    (s.isAlive e = false →
      s.killAtomic e = (.error .wrongGeneration, s)) := by
  constructor
  · intro h
    have hk := killAtomic_ok s e h
    have h2 : (s.killAtomic e).2.isAlive e = true := by
      rw [isAlive_iff, killAtomic_entity]
      exact (isAlive_iff s e).mp h
    refine ⟨by rw [hk], by rw [hk], fun i => killAtomic_entity s e i,
      by rw [hk]; rfl, by rw [hk], ?_, ?_⟩
    · intro ops
      rw [isAlive_iff]
      exact runAtomicState_entity _ ops e.index e
        (by rw [killAtomic_entity]; exact (isAlive_iff s e).mp h)
    · rw [killAtomic_ok _ e h2, hk]
      simp
  · intro h
    unfold Allocator.killAtomic
    simp [h]

/-- C6 witness for `killAtomic_pending_spec`: the allocator holding the
single live entity `(0, 1)` for the live case, and the empty allocator for
the `WrongGeneration` case. -/
theorem killAtomic_pending_spec_witness :
    (Allocator.init.allocate.2.isAlive ⟨0, 1⟩ = true ∧
      ((Allocator.init.allocate.2.killAtomic ⟨0, 1⟩).1 = .ok () ∧
       (Allocator.init.allocate.2.killAtomic ⟨0, 1⟩).2 =
         { Allocator.init.allocate.2 with
             killedAtomic :=
               Insert.insert 0 Allocator.init.allocate.2.killedAtomic } ∧
       (∀ i, (Allocator.init.allocate.2.killAtomic ⟨0, 1⟩).2.entity i =
         Allocator.init.allocate.2.entity i) ∧
       (Allocator.init.allocate.2.killAtomic ⟨0, 1⟩).2.liveBitset =
         Allocator.init.allocate.2.liveBitset ∧
       (Allocator.init.allocate.2.killAtomic ⟨0, 1⟩).2.generations =
         Allocator.init.allocate.2.generations ∧
       (∀ ops : List AOp,
         (runAtomicState
           (Allocator.init.allocate.2.killAtomic ⟨0, 1⟩).2 ops).isAlive
           ⟨0, 1⟩ = true) ∧
       (Allocator.init.allocate.2.killAtomic ⟨0, 1⟩).2.killAtomic ⟨0, 1⟩ =
         (.ok (), (Allocator.init.allocate.2.killAtomic ⟨0, 1⟩).2))) ∧
    (Allocator.init.isAlive ⟨0, 1⟩ = false ∧
      Allocator.init.killAtomic ⟨0, 1⟩ =
        (.error .wrongGeneration, Allocator.init)) :=
  ⟨⟨by decide,
    (killAtomic_pending_spec Allocator.init.allocate.2 ⟨0, 1⟩).1 (by decide)⟩,
   ⟨by decide,
    (killAtomic_pending_spec Allocator.init ⟨0, 1⟩).2 (by decide)⟩⟩

/-! ## The deferred-kill simulation (claim C3) -/

theorem midRel_base (s : Allocator) (h : CleanState s) : MidRel s s s := by
  obtain ⟨hr, hk, hc, hg, hcl⟩ := h
  refine ⟨hg, rfl, rfl, rfl, le_of_eq hc, ?_, rfl, rfl, le_refl _, ?_, hr,
    hk, hg, ?_, ?_, ?_⟩
  · rw [hc, List.take_length]
  · rw [hr, Finset.union_empty]
  · intro j
    rw [hr]
    simp only [Finset.not_mem_empty, if_false]
    rcases Nat.lt_or_ge j s.indexLen with hj | hj
    · rw [if_pos hj, List.getElem?_eq_getElem (by omega)]
      congr 1
      rw [generation_eq, List.getD_eq_getElem _ _ (by omega)]
    · rw [if_neg (by omega), List.getElem?_eq_none (by omega)]
  · intro i hi
    rw [hr] at hi
    exact absurd hi (Finset.not_mem_empty i)
  · intro i hi
    rw [hk] at hi
    exact absurd hi (Finset.not_mem_empty i)

/-- One `allocate_atomic` on the atomic side corresponds to one `allocate`
on the serial side: same returned entity, and the simulation relation is
preserved. -/
theorem mid_alloc (s t u : Allocator)
    (hcl : ∀ i ∈ s.cache, i < s.indexLen) (hm : MidRel s t u) :
    MidRel s (t.allocateAtomic).2 (u.allocate).2 ∧
    (t.allocateAtomic).1 = (u.allocate).1 := by
  obtain ⟨sglen, tgens, talive, tcache, tclen_le, ucache, uclen, uindex,
    sindex, ualive, uraised, ukilled, uglen, ugens, raised_lt,
    killed_live⟩ := hm
  have huclen : u.cache.length = t.cacheLen := by
    rw [ucache, List.length_take]
    omega
  by_cases hpos : 0 < t.cacheLen
  · -- cache-reuse on both sides
    obtain ⟨f0, fg, fr, fk, fa, fc, fl, fi⟩ :=
      allocateAtomic_cache_fields t hpos
    have hieq : t.cache.getD (t.cacheLen - 1) 0 =
        s.cache.getD (t.cacheLen - 1) 0 := by
      rw [tcache]
    have himem : s.cache.getD (t.cacheLen - 1) 0 ∈ s.cache :=
      getD_mem _ _ _ (by omega)
    have hilt : s.cache.getD (t.cacheLen - 1) 0 < t.indexLen := by
      have := hcl _ himem
      omega
    have hlast : (u.cache.take u.cacheLen).getLast? =
        some (s.cache.getD (t.cacheLen - 1) 0) := by
      rw [take_getLast? u.cache u.cacheLen 0 (by omega) (by omega)]
      congr 1
      rw [ucache, uclen, take_getD _ _ _ _ (by omega)]
    obtain ⟨g0, gg, gr, gk, ga, gc, gl, gi⟩ :=
      allocate_cache_fields u _ hlast
    have hugen : u.generation (s.cache.getD (t.cacheLen - 1) 0) =
        (if s.cache.getD (t.cacheLen - 1) 0 ∈ t.raisedAtomic then
          genRaised (s.generation (s.cache.getD (t.cacheLen - 1) 0))
         else s.generation (s.cache.getD (t.cacheLen - 1) 0)) := by
      rw [generation_eq, getD_eq_getElem?', ugens, if_pos hilt]
      rfl
    have hgenval : genRaised (u.generation
        (s.cache.getD (t.cacheLen - 1) 0)) =
        genRaised (s.generation (s.cache.getD (t.cacheLen - 1) 0)) := by
      rw [hugen]
      by_cases hmem : s.cache.getD (t.cacheLen - 1) 0 ∈ t.raisedAtomic
      · rw [if_pos hmem, genRaised_idem]
      · rw [if_neg hmem]
    constructor
    · refine ⟨sglen, ?_, ?_, ?_, ?_, ?_, ?_, ?_, ?_, ?_, ?_, ?_, ?_, ?_,
        ?_, ?_⟩
      · rw [fg, tgens]
      · rw [fa, talive]
      · rw [fc, tcache]
      · rw [fl]
        omega
      · rw [gc, ucache, uclen, List.take_take, Nat.min_self,
          take_dropLast _ _ tclen_le, fl]
      · rw [gl, ucache, uclen, List.take_take, Nat.min_self,
          take_dropLast _ _ tclen_le, List.length_take, fl]
        omega
      · rw [gi, uindex, fi]
      · rw [fi]
        exact sindex
      · rw [ga, ualive, fr, hieq, Finset.union_insert]
      · rw [gr, uraised]
      · rw [gk, ukilled]
      · rw [gg, List.length_set, uglen, fi]
      · intro j
        rw [gg, getElem?_set_formula, ugens, fi, fr, hieq]
        rcases Nat.lt_or_ge j t.indexLen with hj | hj
        · rw [if_pos hj, if_pos hj, Option.map_some']
          congr 1
          rcases eq_or_ne j (s.cache.getD (t.cacheLen - 1) 0) with rfl | hne
          · rw [if_pos rfl, if_pos (Finset.mem_insert_self _ _)]
            exact hgenval
          · rw [if_neg hne]
            by_cases hmem : j ∈ t.raisedAtomic
            · rw [if_pos hmem, if_pos (Finset.mem_insert_of_mem hmem)]
            · rw [if_neg hmem,
                if_neg (fun hc =>
                  (Finset.mem_insert.mp hc).elim hne hmem)]
        · rw [if_neg (by omega), if_neg (by omega), Option.map_none']
      · intro i hi
        rw [fr] at hi
        rw [fi]
        rcases Finset.mem_insert.mp hi with rfl | hi'
        · rw [hieq]
          exact hilt
        · exact raised_lt i hi'
      · intro i hi
        rw [fk] at hi
        rw [fr]
        rcases killed_live i hi with hp | hm'
        · exact Or.inl hp
        · exact Or.inr (Finset.mem_insert_of_mem hm')
    · rw [f0, g0, hieq]
      congr 1
      · rw [generation_eq, tgens, ← generation_eq]
        exact hgenval.symm
  · -- fresh index on both sides
    obtain ⟨f0, fg, fr, fk, fa, fc, fl, fi⟩ :=
      allocateAtomic_fresh_fields t hpos
    have hclen0 : t.cacheLen = 0 := by omega
    have hlast : (u.cache.take u.cacheLen).getLast? = none := by
      rw [uclen, hclen0, List.take_zero]
      rfl
    obtain ⟨g0, gg, gr, gk, ga, gc, gl, gi⟩ := allocate_fresh_fields u hlast
    have hsgen : s.generation t.indexLen = 0 := by
      rw [generation_eq, List.getD_eq_default _ _ (by omega)]
    have htgen : t.generation t.indexLen = 0 := by
      rw [generation_eq, tgens, ← generation_eq]
      exact hsgen
    have hugenL : u.generation t.indexLen = 0 := by
      rw [generation_eq, getD_eq_getElem?', ugens, if_neg (by omega)]
      rfl
    have hpadL : (Allocator.padTo u.generations (u.indexLen + 1)).getD
        u.indexLen 0 = 0 := by
      rw [padTo_getD, ← generation_eq, uindex]
      exact hugenL
    constructor
    · refine ⟨sglen, ?_, ?_, ?_, ?_, ?_, ?_, ?_, ?_, ?_, ?_, ?_, ?_, ?_,
        ?_, ?_⟩
      · rw [fg, tgens]
      · rw [fa, talive]
      · rw [fc, tcache]
      · rw [fl]
        exact tclen_le
      · rw [gc, uclen, hclen0, List.take_zero, fl, hclen0, List.take_zero]
      · rw [gl, fl, hclen0]
      · rw [gi, fi, uindex]
      · rw [fi]
        omega
      · rw [ga, ualive, fr, uindex, Finset.union_insert]
      · rw [gr, uraised]
      · rw [gk, ukilled]
      · rw [gg, List.length_set, padTo_length, uglen, uindex, fi]
        omega
      · intro j
        rw [uindex] at hpadL
        rw [gg, getElem?_set_formula, padTo_getElem?, uglen, uindex, fi, fr]
        rcases Nat.lt_trichotomy j t.indexLen with hj | rfl | hj
        · rw [if_pos hj, ugens, if_pos hj, Option.map_some',
            if_pos (show j < t.indexLen + 1 by omega)]
          congr 1
          rw [if_neg (show ¬ j = t.indexLen by omega)]
          by_cases hmem : j ∈ t.raisedAtomic
          · rw [if_pos hmem, if_pos (Finset.mem_insert_of_mem hmem)]
          · rw [if_neg hmem,
              if_neg (fun hc =>
                (Finset.mem_insert.mp hc).elim
                  (fun h1 => absurd h1 (by omega)) hmem)]
        · rw [if_neg (by omega), if_pos (by omega), if_pos (by omega),
            Option.map_some', if_pos rfl, hpadL,
            if_pos (Finset.mem_insert_self _ _), hsgen]
        · rw [if_neg (by omega), if_neg (by omega), if_neg (by omega),
            Option.map_none']
      · intro i hi
        rw [fr] at hi
        rw [fi]
        rcases Finset.mem_insert.mp hi with rfl | hi'
        · omega
        · have := raised_lt i hi'
          omega
      · intro i hi
        rw [fk] at hi
        rw [fr]
        rcases killed_live i hi with hp | hm'
        · exact Or.inl hp
        · exact Or.inr (Finset.mem_insert_of_mem hm')
    · rw [f0, g0, htgen, hpadL, uindex]

/-- `allocate_atomic` leaves the pending-kill bitset untouched. -/
theorem allocateAtomic_killed (s : Allocator) :
    (s.allocateAtomic).2.killedAtomic = s.killedAtomic := by
  unfold Allocator.allocateAtomic
  split <;> rfl

/-- A failed `kill_atomic` returns the error and the unchanged state. -/
theorem killAtomic_fail (s : Allocator) (e : Entity)
    (h : ¬ s.isAlive e = true) :
    s.killAtomic e = (.error .wrongGeneration, s) := by
  unfold Allocator.killAtomic
  rw [if_neg h]

/-- Under the simulation relation the stored generations of the atomic side
agree with the reconciled base state. -/
theorem mid_generation (s t u : Allocator) (hm : MidRel s t u) (j : Nat) :
    t.generation j = s.generation j := by
  rw [generation_eq, hm.tgens, ← generation_eq]

/-- An entity alive on the atomic side is the observable entity of its
index over the base state. -/
theorem mid_obs (s t u : Allocator) (e : Entity) (hm : MidRel s t u)
    (h : t.isAlive e = true) : e = obsEnt s e.index := by
  obtain ⟨i, g⟩ := e
  rcases isAlive_imp t ⟨i, g⟩ h with ⟨h0, hg⟩ | ⟨h0, hmem, hg⟩
  · rw [mid_generation s t u hm] at h0 hg
    show (⟨i, g⟩ : Entity) = obsEnt s i
    unfold obsEnt
    rw [if_pos h0]
    exact congrArg (Entity.mk i) hg
  · rw [mid_generation s t u hm] at h0 hg
    show (⟨i, g⟩ : Entity) = obsEnt s i
    unfold obsEnt
    rw [if_neg h0]
    exact congrArg (Entity.mk i) hg

/-- A successful atomic kill only inserts the pending-kill bit and
preserves the simulation relation (the serial side defers the kill). -/
theorem mid_kill_ok (s t u : Allocator) (e : Entity) (hm : MidRel s t u)
    (h : t.isAlive e = true) :
    MidRel s { t with killedAtomic := insert e.index t.killedAtomic } u := by
  refine ⟨hm.sglen, hm.tgens, hm.talive, hm.tcache, hm.tclen_le, hm.ucache,
    hm.uclen, hm.uindex, hm.sindex, hm.ualive, hm.uraised, hm.ukilled,
    hm.uglen, hm.ugens, hm.raised_lt, ?_⟩
  intro i hi
  rcases Finset.mem_insert.mp hi with rfl | hi'
  · rcases isAlive_imp t e h with ⟨h0, _⟩ | ⟨_, hmem, _⟩
    · left
      rw [← mid_generation s t u hm]
      exact h0
    · right
      exact hmem
  · exact hm.killed_live i hi'

/-- The observable entity of an index carries that index. -/
theorem obsEnt_index (s : Allocator) (i : Nat) : (obsEnt s i).index = i := by
  unfold obsEnt
  split <;> rfl

/-- The atomic phase against its deferred-kill serial image: starting from
related states, the final states stay related, both sides allocate the same
entities in the same order, the pending-kill bitset collects exactly the
indices of the successfully killed entities, and every successfully killed
entity is the observable entity of its index over the base state. -/
theorem runAS_rel (s : Allocator) (hcl : ∀ i ∈ s.cache, i < s.indexLen)
    (ops : List AOp) :
    ∀ (t u : Allocator), MidRel s t u →
      MidRel s (runA t ops).1 (runS u ops).1 ∧
      (runA t ops).2.1 = (runS u ops).2 ∧
      (runA t ops).1.killedAtomic =
        t.killedAtomic ∪ ((runA t ops).2.2.map Entity.index).toFinset ∧
      (∀ e ∈ (runA t ops).2.2, e = obsEnt s e.index) := by
  induction ops with
  | nil =>
    intro t u hm
    refine ⟨hm, rfl, ?_, ?_⟩
    · show t.killedAtomic = t.killedAtomic ∪
        ((([] : List Entity)).map Entity.index).toFinset
      simp
    · intro e he
      exact absurd he (List.not_mem_nil e)
  | cons op rest ih =>
    intro t u hm
    cases op with
    | alloc =>
      obtain ⟨hma, htrace⟩ := mid_alloc s t u hcl hm
      obtain ⟨ih1, ih2, ih3, ih4⟩ :=
        ih (t.allocateAtomic).2 (u.allocate).2 hma
      refine ⟨ih1, ?_, ?_, ih4⟩
      · show (t.allocateAtomic).1 ::
            (runA (t.allocateAtomic).2 rest).2.1 =
          (u.allocate).1 :: (runS (u.allocate).2 rest).2
        rw [htrace, ih2]
      · show (runA (t.allocateAtomic).2 rest).1.killedAtomic =
          t.killedAtomic ∪
            (((runA (t.allocateAtomic).2 rest).2.2).map
              Entity.index).toFinset
        rw [ih3, allocateAtomic_killed]
    | kill e =>
      by_cases halive : t.isAlive e = true
      · have hk := killAtomic_ok t e halive
        obtain ⟨ih1, ih2, ih3, ih4⟩ :=
          ih (t.killAtomic e).2 u
            (by rw [hk]; exact mid_kill_ok s t u e hm halive)
        have h3 : (runA t (.kill e :: rest)).2.2 =
            e :: (runA (t.killAtomic e).2 rest).2.2 := by
          show (match (t.killAtomic e).1 with
                | .ok _ => e :: (runA (t.killAtomic e).2 rest).2.2
                | .error _ => (runA (t.killAtomic e).2 rest).2.2) =
            e :: (runA (t.killAtomic e).2 rest).2.2
          rw [hk]
        have hk2 : (t.killAtomic e).2.killedAtomic =
            insert e.index t.killedAtomic := by
          rw [hk]
        refine ⟨ih1, ih2, ?_, ?_⟩
        · rw [h3]
          show (runA (t.killAtomic e).2 rest).1.killedAtomic =
            t.killedAtomic ∪
              ((e :: (runA (t.killAtomic e).2 rest).2.2).map
                Entity.index).toFinset
          rw [ih3, hk2, List.map_cons, List.toFinset_cons,
            Finset.insert_union, Finset.union_insert]
        · intro e' he'
          rw [h3] at he'
          rcases List.mem_cons.mp he' with rfl | h'
          · exact mid_obs s t u e' hm halive
          · exact ih4 e' h'
      · have hk := killAtomic_fail t e halive
        obtain ⟨ih1, ih2, ih3, ih4⟩ :=
          ih (t.killAtomic e).2 u (by rw [hk]; exact hm)
        have h3 : (runA t (.kill e :: rest)).2.2 =
            (runA (t.killAtomic e).2 rest).2.2 := by
          show (match (t.killAtomic e).1 with
                | .ok _ => e :: (runA (t.killAtomic e).2 rest).2.2
                | .error _ => (runA (t.killAtomic e).2 rest).2.2) =
            (runA (t.killAtomic e).2 rest).2.2
          rw [hk]
        have hk2 : (t.killAtomic e).2.killedAtomic = t.killedAtomic := by
          rw [hk]
        refine ⟨ih1, ih2, ?_, ?_⟩
        · rw [h3]
          show (runA (t.killAtomic e).2 rest).1.killedAtomic =
            t.killedAtomic ∪
              (((runA (t.killAtomic e).2 rest).2.2).map
                Entity.index).toFinset
          rw [ih3, hk2]
        · intro e' he'
          rw [h3] at he'
          exact ih4 e' he'

/-- Unrolling `killAll` one entity at a time. -/
theorem killAll_cons (w : Allocator) (e : Entity) (es : List Entity) :
    killAll w (e :: es) =
      match (w.kill e).1 with
      | .ok _ => killAll (w.kill e).2 es
      | .error g => .error g := by
  unfold killAll
  rw [List.foldlM_cons]
  rcases hk : w.kill e with ⟨r, w1⟩
  cases r with
  | ok a => rfl
  | error g => rfl

/-- Serially killing a duplicate-free list of live indices: every kill
succeeds, the killed indices leave the alive set, their generations are
killed in place, and the indices are appended to the cache in order. -/
theorem killAll_spec (l : List Nat) :
    ∀ (w : Allocator), w.raisedAtomic = ∅ → w.killedAtomic = ∅ →
    w.cacheLen = w.cache.length → l.Nodup →
    (∀ i ∈ l, 0 < w.generation i) →
    ∃ v, killAll w (l.map (fun i => (⟨i, w.generation i⟩ : Entity))) =
        .ok v ∧
      v.raisedAtomic = ∅ ∧ v.killedAtomic = ∅ ∧
      v.alive = w.alive \ l.toFinset ∧
      v.cache = w.cache ++ l ∧
      v.cacheLen = w.cacheLen + l.length ∧
      v.indexLen = w.indexLen ∧
      v.generations.length = w.generations.length ∧
      ∀ j, v.generations[j]? = (w.generations[j]?).map
        (fun g => if j ∈ l then genKilled g else g) := by
  induction l with
  | nil =>
    intro w hr hk hc _ _
    refine ⟨w, rfl, hr, hk, by simp, by simp, rfl, rfl, rfl, ?_⟩
    intro j
    rcases w.generations[j]? with _ | a <;> simp
  | cons i rest ihl =>
    intro w hr hk hc hnd hpos
    have h0 : 0 < w.generation i := hpos i (List.mem_cons_self i rest)
    have hinotin : i ∉ rest := (List.nodup_cons.mp hnd).1
    have hndr : rest.Nodup := (List.nodup_cons.mp hnd).2
    have halive : w.isAlive ⟨i, w.generation i⟩ = true := by
      rw [isAlive_iff]
      show w.entity i = some ⟨i, w.generation i⟩
      unfold Allocator.entity
      rw [if_pos h0]
    have hrr : (⟨i, w.generation i⟩ : Entity).index ∉ w.raisedAtomic := by
      rw [hr]
      exact Finset.not_mem_empty i
    obtain ⟨k0, kg, kr, kk, ka, kc, kl, ki⟩ :=
      kill_not_raised_fields w ⟨i, w.generation i⟩ halive hrr
    have kg' : (w.kill ⟨i, w.generation i⟩).2.generations =
        w.generations.set i (genKilled (w.generation i)) := kg
    have ka' : (w.kill ⟨i, w.generation i⟩).2.alive =
        w.alive.erase i := ka
    have kc' : (w.kill ⟨i, w.generation i⟩).2.cache =
        w.cache ++ [i] := by
      rw [kc, hc, List.take_length]
    have kl' : (w.kill ⟨i, w.generation i⟩).2.cacheLen =
        w.cacheLen + 1 := by
      rw [kl, List.length_append, hc, List.take_length]
      rfl
    have hgen_ne : ∀ j, j ≠ i →
        (w.kill ⟨i, w.generation i⟩).2.generation j = w.generation j := by
      intro j hne
      rw [generation_eq, kg', getD_set_ne _ _ _ _ _ (fun he => hne he.symm),
        ← generation_eq]
    obtain ⟨v, hv, vr, vk, va, vc, vl, vi, vglen, vgens⟩ :=
      ihl (w.kill ⟨i, w.generation i⟩).2
        (by rw [kr, hr])
        (by rw [kk, hk, Finset.erase_empty])
        (by rw [kl, kc])
        hndr
        (by
          intro j hj
          rw [hgen_ne j (fun he => hinotin (he ▸ hj))]
          exact hpos j (List.mem_cons_of_mem i hj))
    have hmap : rest.map (fun j =>
          (⟨j, (w.kill ⟨i, w.generation i⟩).2.generation j⟩ : Entity)) =
        rest.map (fun j => (⟨j, w.generation j⟩ : Entity)) := by
      apply List.map_congr_left
      intro j hj
      rw [hgen_ne j (fun he => hinotin (he ▸ hj))]
    have hrun : killAll w ((i :: rest).map
          (fun j => (⟨j, w.generation j⟩ : Entity))) =
        killAll (w.kill ⟨i, w.generation i⟩).2
          (rest.map (fun j =>
            (⟨j, (w.kill ⟨i, w.generation i⟩).2.generation j⟩ :
              Entity))) := by
      rw [List.map_cons, killAll_cons, k0, hmap]
    refine ⟨v, ?_, vr, vk, ?_, ?_, ?_, ?_, ?_, ?_⟩
    · rw [hrun]
      exact hv
    · rw [va, ka']
      ext j
      simp only [Finset.mem_sdiff, Finset.mem_erase, List.toFinset_cons,
        Finset.mem_insert, List.mem_toFinset, not_or]
      tauto
    · rw [vc, kc', List.append_assoc, List.singleton_append]
    · rw [vl, kl', List.length_cons]
      omega
    · rw [vi, ki]
    · rw [vglen, kg', List.length_set]
    · intro j
      rw [vgens, kg', getElem?_set_formula, Option.map_map]
      rcases hx : w.generations[j]? with _ | a
      · rfl
      · rw [Option.map_some', Option.map_some']
        congr 1
        dsimp only [Function.comp]
        by_cases hji : j = i
        · subst hji
          have ha : w.generation j = a := by
            rw [generation_eq, getD_eq_getElem?', hx]
            rfl
          simp [hinotin, ha]
        · simp [hji, List.mem_cons]

/-- At the merge point: the merged output lists the observable entities of
the pending-kill indices in ascending order, and serially killing exactly
those entities on the deferred-serial side produces the post-merge state. -/
theorem mid_merge_killAll (s t u : Allocator) (hm : MidRel s t u) :
    (t.mergeAtomic).1 =
      (maskIter t.killedAtomic).map (fun i => obsEnt s i) ∧
    killAll u ((t.mergeAtomic).1) = .ok ((t.mergeAtomic).2) := by
  have killed_lt : ∀ i ∈ t.killedAtomic, i < t.indexLen := by
    intro i hi
    rcases hm.killed_live i hi with hp | hra
    · have h1 := generation_pos_lt s i hp
      have h2 := hm.sglen
      have h3 := hm.sindex
      omega
    · exact hm.raised_lt i hra
  have hpadlen : (Allocator.padTo t.generations t.indexLen).length =
      t.indexLen := by
    rw [padTo_length, hm.tgens, hm.sglen]
    have := hm.sindex
    omega
  have hkbound : ∀ i ∈ t.killedAtomic,
      i < (Allocator.padTo t.generations t.indexLen).length := by
    intro i hi
    rw [hpadlen]
    exact killed_lt i hi
  obtain ⟨o1, o2, o3, o4, o5, o6, o7, o8, o9⟩ := mergeAtomic_spec t hkbound
  have hval : ∀ i ∈ t.killedAtomic,
      (⟨i, if i ∈ t.raisedAtomic then genRaised (t.generation i)
           else t.generation i⟩ : Entity) = obsEnt s i := by
    intro i hi
    simp only [mid_generation s t u hm]
    unfold obsEnt
    by_cases hra : i ∈ t.raisedAtomic
    · rw [if_pos hra]
      by_cases h0 : 0 < s.generation i
      · rw [if_pos h0, genRaised_of_pos h0]
      · rw [if_neg h0]
    · rw [if_neg hra]
      rcases hm.killed_live i hi with hp | hra'
      · rw [if_pos hp]
      · exact absurd hra' hra
  have hout : (t.mergeAtomic).1 =
      (maskIter t.killedAtomic).map (fun i => obsEnt s i) := by
    rw [o1]
    apply List.map_congr_left
    intro i hi
    exact hval i ((maskIter_mem _ _).mp hi)
  refine ⟨hout, ?_⟩
  have hugen : ∀ i, i < t.indexLen → u.generation i =
      (if i ∈ t.raisedAtomic then genRaised (s.generation i)
       else s.generation i) := by
    intro i hilt
    rw [generation_eq, getD_eq_getElem?', hm.ugens, if_pos hilt]
    rfl
  have hupos : ∀ i ∈ maskIter t.killedAtomic, 0 < u.generation i := by
    intro i hi
    have hi' := (maskIter_mem _ _).mp hi
    rw [hugen i (killed_lt i hi')]
    rcases hm.killed_live i hi' with hp | hra
    · by_cases hra' : i ∈ t.raisedAtomic
      · rw [if_pos hra']
        have := genRaised_pos (s.generation i)
        omega
      · rw [if_neg hra']
        exact hp
    · rw [if_pos hra]
      have := genRaised_pos (s.generation i)
      omega
  have husync : u.cacheLen = u.cache.length := by
    rw [hm.ucache, hm.uclen, List.length_take]
    have := hm.tclen_le
    omega
  obtain ⟨v, hv, vr, vk, va, vc, vl, vi, vglen, vgens⟩ :=
    killAll_spec (maskIter t.killedAtomic) u hm.uraised hm.ukilled husync
      (maskIter_nodup _) hupos
  have hlist : (t.mergeAtomic).1 = (maskIter t.killedAtomic).map
      (fun i => (⟨i, u.generation i⟩ : Entity)) := by
    rw [hout]
    apply List.map_congr_left
    intro i hi
    have hi' := (maskIter_mem _ _).mp hi
    rw [hugen i (killed_lt i hi')]
    unfold obsEnt
    by_cases hra : i ∈ t.raisedAtomic
    · by_cases h0 : 0 < s.generation i
      · rw [if_pos h0, if_pos hra, genRaised_of_pos h0]
      · rw [if_neg h0, if_pos hra]
    · rcases hm.killed_live i hi' with hp | hra'
      · rw [if_pos hp, if_neg hra]
      · exact absurd hra' hra
  rw [hlist, hv]
  congr 1
  apply Allocator.ext
  · apply List.ext_getElem?
    intro j
    rw [vgens, o8, hm.ugens]
    rcases Nat.lt_or_ge j t.indexLen with hj | hj
    · rw [if_pos hj, padTo_getElem?_lt _ _ _ (by rw [hpadlen]; exact hj),
        Option.map_some', Option.map_some']
      have hv0 : t.generations.getD j 0 = s.generation j := by
        rw [hm.tgens, ← generation_eq]
      rw [hv0]
      by_cases hkm : j ∈ t.killedAtomic
      · rw [if_pos ((maskIter_mem _ _).mpr hkm), if_pos hkm]
      · rw [if_neg (fun hc => hkm ((maskIter_mem _ _).mp hc)),
          if_neg hkm]
    · rw [if_neg (by omega),
        List.getElem?_eq_none (by rw [hpadlen]; omega),
        Option.map_none', Option.map_none']
  · rw [va, hm.ualive, o4, hm.talive, maskIter_toFinset]
  · rw [vr, o2]
  · rw [vk, o3]
  · rw [vc, hm.ucache, o6, hm.tcache]
  · rw [vl, o7, o6, List.length_append, List.length_take, hm.uclen,
      hm.tcache]
    have := hm.tclen_le
    omega
  · rw [vi, o5, hm.uindex]

/-- C3 counterexample: the claimed serial equivalent applies each
`kill_atomic` as an in-place `kill`, but `kill_atomic` only marks a
pending-kill bit while serial `kill` immediately pushes the index onto the
reuse cache.  For the sequence `allocate_atomic`; `kill_atomic (0,1)`;
`allocate_atomic` on a fresh allocator, the post-merge state has
`max_entity_count = 2` and `is_alive (1,1) = true`, while the in-place
serial equivalent (`allocate`; `kill (0,1)`; `allocate`) reuses index `0`
and ends with `max_entity_count = 1` and `is_alive (1,1) = false`: the two
states are observably different. -/
theorem mergeAtomic_serial_counterexample :
    CleanState Allocator.init ∧
    ((runA Allocator.init
        [AOp.alloc, AOp.kill ⟨0, 1⟩,
          AOp.alloc]).1.mergeAtomic).2.maxEntityCount = 2 ∧
    (runSerial Allocator.init
        [AOp.alloc, AOp.kill ⟨0, 1⟩, AOp.alloc]).maxEntityCount = 1 ∧
    ((runA Allocator.init
        [AOp.alloc, AOp.kill ⟨0, 1⟩,
          AOp.alloc]).1.mergeAtomic).2.isAlive ⟨1, 1⟩ = true ∧
    (runSerial Allocator.init
        [AOp.alloc, AOp.kill ⟨0, 1⟩, AOp.alloc]).isAlive ⟨1, 1⟩ =
      false := by
  decide

/-- C3 (amended): for every clean base state and every sequence of
`allocate_atomic`/`kill_atomic` calls terminated by `merge_atomic`: both
sides allocate the same entities in the same order; every entity whose
`kill_atomic` succeeded was the observable entity of its index at kill
time; the merge output consists of exactly those successfully killed
entities (the same set, each index emitted once); and the post-merge state
equals the state of the deferred-serial equivalent, in which every
`allocate_atomic` is an `allocate` and the kills are applied serially with
`kill` at the merge point (every such `kill` succeeding). -/
theorem mergeAtomic_deferred_serial (s : Allocator) (ops : List AOp)
    (h : CleanState s) :
    (runA s ops).2.1 = (runS s ops).2 ∧
    (∀ e ∈ (runA s ops).2.2, e = obsEnt s e.index) ∧
    (((runA s ops).1.mergeAtomic).1).toFinset =
      ((runA s ops).2.2).toFinset ∧
    ((((runA s ops).1.mergeAtomic).1).map Entity.index).Nodup ∧
    killAll (runS s ops).1 (((runA s ops).1.mergeAtomic).1) =
      .ok (((runA s ops).1.mergeAtomic).2) := by
  obtain ⟨cr, ck, cc, cg, ccl⟩ := h
  obtain ⟨hm, htr, hkd, hobs⟩ :=
    runAS_rel s ccl ops s s (midRel_base s ⟨cr, ck, cc, cg, ccl⟩)
  obtain ⟨hout, hka⟩ := mid_merge_killAll s (runA s ops).1 (runS s ops).1 hm
  rw [ck, Finset.empty_union] at hkd
  refine ⟨htr, hobs, ?_, ?_, hka⟩
  · rw [hout]
    ext x
    simp only [List.mem_toFinset, List.mem_map]
    constructor
    · rintro ⟨i, hiK, rfl⟩
      have hik : i ∈ (runA s ops).1.killedAtomic :=
        (maskIter_mem _ _).mp hiK
      rw [hkd, List.mem_toFinset, List.mem_map] at hik
      obtain ⟨e, he, hei⟩ := hik
      rw [← hei, ← hobs e he]
      exact he
    · intro hx
      refine ⟨x.index, ?_, (hobs x hx).symm⟩
      rw [maskIter_mem, hkd, List.mem_toFinset, List.mem_map]
      exact ⟨x, hx, rfl⟩
  · have hidx : (maskIter (runA s ops).1.killedAtomic).map
        (Entity.index ∘ fun i => obsEnt s i) =
        (maskIter (runA s ops).1.killedAtomic).map id := by
      apply List.map_congr_left
      intro i hi
      exact obsEnt_index s i
    rw [hout, List.map_map, hidx, List.map_id]
    exact maskIter_nodup _

/-- C3 witness: the amended statement evaluated on a fresh allocator with
the sequence `allocate_atomic`; `kill_atomic (0,1)`; `allocate_atomic`. -/
theorem mergeAtomic_deferred_serial_witness :
    CleanState Allocator.init ∧
    ((runA Allocator.init [AOp.alloc, AOp.kill ⟨0, 1⟩, AOp.alloc]).2.1 =
        (runS Allocator.init [AOp.alloc, AOp.kill ⟨0, 1⟩, AOp.alloc]).2 ∧
      (∀ e ∈ (runA Allocator.init
          [AOp.alloc, AOp.kill ⟨0, 1⟩, AOp.alloc]).2.2,
        e = obsEnt Allocator.init e.index) ∧
      (((runA Allocator.init
          [AOp.alloc, AOp.kill ⟨0, 1⟩,
            AOp.alloc]).1.mergeAtomic).1).toFinset =
        ((runA Allocator.init
          [AOp.alloc, AOp.kill ⟨0, 1⟩, AOp.alloc]).2.2).toFinset ∧
      ((((runA Allocator.init
          [AOp.alloc, AOp.kill ⟨0, 1⟩,
            AOp.alloc]).1.mergeAtomic).1).map Entity.index).Nodup ∧
      killAll (runS Allocator.init
          [AOp.alloc, AOp.kill ⟨0, 1⟩, AOp.alloc]).1
          (((runA Allocator.init
            [AOp.alloc, AOp.kill ⟨0, 1⟩,
              AOp.alloc]).1.mergeAtomic).1) =
        .ok (((runA Allocator.init
          [AOp.alloc, AOp.kill ⟨0, 1⟩,
            AOp.alloc]).1.mergeAtomic).2)) :=
  ⟨by decide,
   mergeAtomic_deferred_serial Allocator.init
     [AOp.alloc, AOp.kill ⟨0, 1⟩, AOp.alloc] (by decide)⟩

/-- C9 witness: the roundtrip evaluated at concrete empty storages of all
shapes, index `0`, value `7`. -/
theorem maskedStorage_roundtrip_witness :
    ((0 : Nat) ∉ (∅ : Finset Nat) ∧ (0 : Nat) ∉ (∅ : Finset Nat) ∧
     (0 : Nat) ∉ (∅ : Finset Nat)) ∧
    (((MaskedStorage.insert (vecOps Nat) ⟨∅, ⟨[]⟩⟩ 0 7).1 = none ∧
      MaskedStorage.get (vecOps Nat)
        (MaskedStorage.insert (vecOps Nat) ⟨∅, ⟨[]⟩⟩ 0 7).2 0 = some 7 ∧
      (MaskedStorage.remove (vecOps Nat)
        (MaskedStorage.insert (vecOps Nat) ⟨∅, ⟨[]⟩⟩ 0 7).2 0).1 = some 7 ∧
      MaskedStorage.get (vecOps Nat)
        (MaskedStorage.remove (vecOps Nat)
          (MaskedStorage.insert (vecOps Nat) ⟨∅, ⟨[]⟩⟩ 0 7).2 0).2 0 =
        none) ∧
     ((MaskedStorage.insert (denseOps Nat) ⟨∅, ⟨[], [], []⟩⟩ 0 7).1 = none ∧
      MaskedStorage.get (denseOps Nat)
        (MaskedStorage.insert (denseOps Nat) ⟨∅, ⟨[], [], []⟩⟩ 0 7).2 0 =
        some 7 ∧
      (MaskedStorage.remove (denseOps Nat)
        (MaskedStorage.insert (denseOps Nat) ⟨∅, ⟨[], [], []⟩⟩ 0 7).2 0).1 =
        some 7 ∧
      MaskedStorage.get (denseOps Nat)
        (MaskedStorage.remove (denseOps Nat)
          (MaskedStorage.insert
            (denseOps Nat) ⟨∅, ⟨[], [], []⟩⟩ 0 7).2 0).2 0 = none) ∧
     ((MaskedStorage.insert (hashOps Nat) ⟨∅, ⟨fun _ => none⟩⟩ 0 7).1 =
        none ∧
      MaskedStorage.get (hashOps Nat)
        (MaskedStorage.insert (hashOps Nat) ⟨∅, ⟨fun _ => none⟩⟩ 0 7).2 0 =
        some 7 ∧
      (MaskedStorage.remove (hashOps Nat)
        (MaskedStorage.insert
          (hashOps Nat) ⟨∅, ⟨fun _ => none⟩⟩ 0 7).2 0).1 = some 7 ∧
      MaskedStorage.get (hashOps Nat)
        (MaskedStorage.remove (hashOps Nat)
          (MaskedStorage.insert
            (hashOps Nat) ⟨∅, ⟨fun _ => none⟩⟩ 0 7).2 0).2 0 = none)) :=
  ⟨⟨by decide, by decide, by decide⟩,
   maskedStorage_roundtrip ⟨∅, ⟨[]⟩⟩ ⟨∅, ⟨[], [], []⟩⟩
     ⟨∅, ⟨fun _ => none⟩⟩ 0 7 (by decide) (by decide) (by decide)⟩

end Goggles
